import Mathlib

/-!
node-OCR: the extraction pipeline of `llm.mjs`.

A shallow embedding of the provider adapters of `llm.mjs` (`runOCR`,
`extractJsonFromContent`, `parseWithGemma`, `parseWithOllamaLocal`,
`parseWithOllamaCloud`, `parseWithGemini`) and of the JavaScript built-ins they rest on.

* JavaScript values are the type `JVal`; `||`, `&&`, `typeof`, `?.` and property reads are
  the functions `jsOr`, `jsAnd`, `JVal.typeof`, `optChain`, `getProp`.
* `JSON.parse` is the recursive-descent parser `jsonParse` of the JSON grammar (ECMA-404);
  it returns the syntax tree `Json` of the text. The JavaScript value that `JSON.parse`
  returns is a function of that tree, and `JSON.parse` throws exactly when the text has no
  tree, so equal trees are deep-equal values.
* The OCR engine, the HTTP client, the Gemini client, `process.env` and `JSON.stringify`
  are the fields of `World`; every call to one of the first three is recorded in the trace
  of the run, in order.
* A thrown error is `Except.error` with the message of the error.
-/

namespace OCR

/-! ## JSON texts -/

/-- Syntax tree of a JSON text. Numbers and strings keep the characters of their literal. -/
inductive Json where
  | null
  | bool (b : Bool)
  | num (lit : String)
  | str (lit : String)
  | arr (items : List Json)
  | obj (members : List (String × Json))

instance : Inhabited Json := ⟨Json.null⟩

/-- The value is a number literal. -/
def Json.isNum : Json → Bool
  | Json.num _ => true
  | _ => false

/-- The value is an object. -/
def Json.isObj : Json → Bool
  | Json.obj _ => true
  | _ => false

/-- JSON whitespace: space, tab, line feed, carriage return. -/
def isWs (c : Char) : Bool :=
  c = ' ' || c = '\t' || c = '\n' || c = '\r'

def skipWs : List Char → List Char
  | [] => []
  | c :: cs => if isWs c then skipWs cs else c :: cs

def isHex (c : Char) : Bool :=
  c.isDigit || (97 ≤ c.toNat && c.toNat ≤ 102) || (65 ≤ c.toNat && c.toNat ≤ 70)

/-- The characters that may follow a backslash, the u escape apart. -/
def isSimpleEscape (c : Char) : Bool :=
  c = '\x22' || c = '\x5c' || c = '/' || c = 'b' || c = 'f' || c = 'n' || c = 'r' || c = 't'

/-- The next n characters exist and are hexadecimal digits. -/
def hexN : Nat → List Char → Bool
  | 0, _ => true
  | _ + 1, [] => false
  | n + 1, c :: cs => isHex c && hexN n cs

/-- Body of a string literal after its opening quote: the raw characters up to the
closing quote, and the rest of the input. The flag says that the previous character
was a backslash. -/
def parseStrBody : Bool → List Char → Option (List Char × List Char)
  | _, [] => none
  | true, e :: cs =>
    if isSimpleEscape e || (e = 'u' && hexN 4 cs) then
      (parseStrBody false cs).map fun p => (e :: p.1, p.2)
    else none
  | false, c :: cs =>
    if c = '\x22' then some ([], cs)
    else if c = '\x5c' then (parseStrBody true cs).map fun p => (c :: p.1, p.2)
    else if c.toNat < 32 then none
    else (parseStrBody false cs).map fun p => (c :: p.1, p.2)

def isDigit19 (c : Char) : Bool := 49 ≤ c.toNat && c.toNat ≤ 57

/-- Optional fraction part of a number: a dot followed by at least one digit. -/
def parseFrac (s : List Char) : Option (List Char × List Char) :=
  match s with
  | c :: r =>
    if c = '.' then
      if (r.takeWhile Char.isDigit).isEmpty then none
      else some (c :: r.takeWhile Char.isDigit, r.dropWhile Char.isDigit)
    else some ([], s)
  | [] => some ([], s)

/-- Digits of an exponent: at least one is required. -/
def parseExpDigits (pre s : List Char) : Option (List Char × List Char) :=
  if (s.takeWhile Char.isDigit).isEmpty then none
  else some (pre ++ s.takeWhile Char.isDigit, s.dropWhile Char.isDigit)

/-- Optional exponent part of a number. -/
def parseExp (s : List Char) : Option (List Char × List Char) :=
  match s with
  | e :: r =>
    if e = 'e' || e = 'E' then
      match r with
      | sg :: r1 =>
        if sg = '+' || sg = '-' then parseExpDigits [e, sg] r1
        else parseExpDigits [e] r
      | [] => none
    else some ([], s)
  | [] => some ([], s)

/-- Integer part of a number: a single zero, or a non-zero digit and more digits. -/
def parseInt (s : List Char) : Option (List Char × List Char) :=
  match s with
  | c :: r =>
    if c = '0' then some ([c], r)
    else if isDigit19 c then some (c :: r.takeWhile Char.isDigit, r.dropWhile Char.isDigit)
    else none
  | [] => none

def parseUnsigned (s : List Char) : Option (List Char × List Char) :=
  match parseInt s with
  | none => none
  | some (i, r1) =>
    match parseFrac r1 with
    | none => none
    | some (f, r2) =>
      match parseExp r2 with
      | none => none
      | some (e, r3) => some (i ++ (f ++ e), r3)

/-- A number literal: the characters it is made of, and the rest of the input. -/
def parseNumber (s : List Char) : Option (List Char × List Char) :=
  match s with
  | c :: r =>
    if c = '-' then (parseUnsigned r).map fun p => (c :: p.1, p.2)
    else parseUnsigned s
  | [] => none

/-- The input begins with the given characters: the rest of the input after them. -/
def expect : List Char → List Char → Option (List Char)
  | [], s => some s
  | _ :: _, [] => none
  | x :: xs, c :: cs => if c = x then expect xs cs else none

/-- The scalar values: strings, the three literals and numbers. -/
def parseScalar : List Char → Option (Json × List Char)
  | [] => none
  | c :: cs =>
    if c = '\x22' then
      (parseStrBody false cs).map fun p => (Json.str (String.mk p.1), p.2)
    else if c = 't' then
      (expect ['r', 'u', 'e'] cs).map fun r => (Json.bool true, r)
    else if c = 'f' then
      (expect ['a', 'l', 's', 'e'] cs).map fun r => (Json.bool false, r)
    else if c = 'n' then
      (expect ['u', 'l', 'l'] cs).map fun r => (Json.null, r)
    else (parseNumber (c :: cs)).map fun p => (Json.num (String.mk p.1), p.2)

mutual
/-- One JSON value at the head of the input, and the rest of the input. The first argument
bounds the depth of the recursion; the length of the input is always enough. -/
def parseValue : Nat → List Char → Option (Json × List Char)
  | 0, _ => none
  | _ + 1, [] => none
  | n + 1, c :: cs =>
    if c = '\x7b' then
      match skipWs cs with
      | [] => none
      | d :: r =>
        if d = '\x7d' then some (Json.obj [], r)
        else (parseMembers n (d :: r)).map fun p => (Json.obj p.1, p.2)
    else if c = '[' then
      match skipWs cs with
      | [] => none
      | d :: r =>
        if d = ']' then some (Json.arr [], r)
        else (parseElements n (d :: r)).map fun p => (Json.arr p.1, p.2)
    else parseScalar (c :: cs)
/-- The members of an object up to and including its closing brace. -/
def parseMembers : Nat → List Char → Option (List (String × Json) × List Char)
  | 0, _ => none
  | _ + 1, [] => none
  | n + 1, q :: cs =>
    if q = '\x22' then
      match parseStrBody false cs with
      | none => none
      | some (k, r0) =>
        match skipWs r0 with
        | [] => none
        | col :: r1 =>
          if col = ':' then
            match parseValue n (skipWs r1) with
            | none => none
            | some (v, r2) =>
              match skipWs r2 with
              | [] => none
              | d :: r3 =>
                if d = ',' then
                  (parseMembers n (skipWs r3)).map fun p => ((String.mk k, v) :: p.1, p.2)
                else if d = '\x7d' then some ([(String.mk k, v)], r3)
                else none
          else none
    else none
/-- The elements of an array up to and including its closing bracket. -/
def parseElements : Nat → List Char → Option (List Json × List Char)
  | 0, _ => none
  | n + 1, s =>
    match parseValue n s with
    | none => none
    | some (v, r2) =>
      match skipWs r2 with
      | [] => none
      | d :: r3 =>
        if d = ',' then
          (parseElements n (skipWs r3)).map fun p => (v :: p.1, p.2)
        else if d = ']' then some ([v], r3)
        else none
end

/-- The built-in `JSON.parse`: the whole text is one value between optional whitespace;
`none` is the thrown `SyntaxError`. -/
def jsonParse (s : List Char) : Option Json :=
  match parseValue (s.length + 1) (skipWs s) with
  | none => none
  | some (v, r) => if (skipWs r).isEmpty then some v else none

/-- `s.indexOf(c)`: the first position of the character, `none` for the result -1. -/
def indexOf (c : Char) : List Char → Option Nat
  | [] => none
  | x :: xs => if x = c then some 0 else (indexOf c xs).map (· + 1)

/-- `s.lastIndexOf(c)`: the last position of the character, `none` for the result -1. -/
def lastIndexOf (c : Char) : List Char → Option Nat
  | [] => none
  | x :: xs =>
    match lastIndexOf c xs with
    | some i => some (i + 1)
    | none => if x = c then some 0 else none

/-! ## JavaScript values -/

/-- A JavaScript value: what an options bag, an environment or a response body holds.
The adapters read nothing of a number but whether it is zero, so numbers are integers
(a time-out is a number of milliseconds). -/
inductive JVal where
  | undefined
  | null
  | bool (b : Bool)
  | num (q : Int)
  | str (s : String)
  | arr (items : List JVal)
  | obj (fields : List (String × JVal))

instance : Inhabited JVal := ⟨JVal.undefined⟩

/-- Truthiness of a value, as `!`, `||`, `&&` and `if` see it. -/
def JVal.truthy : JVal → Bool
  | JVal.undefined => false
  | JVal.null => false
  | JVal.bool b => b
  | JVal.num q => q != 0
  | JVal.str s => !s.isEmpty
  | JVal.arr _ => true
  | JVal.obj _ => true

/-- The operator `typeof`. -/
def JVal.typeof : JVal → String
  | JVal.undefined => "undefined"
  | JVal.null => "object"
  | JVal.bool _ => "boolean"
  | JVal.num _ => "number"
  | JVal.str _ => "string"
  | JVal.arr _ => "object"
  | JVal.obj _ => "object"

/-- The characters of a string value. -/
def JVal.chars : JVal → List Char
  | JVal.str s => s.toList
  | _ => []

/-- The value is `undefined` or `null`. -/
def JVal.nullish : JVal → Bool
  | JVal.undefined => true
  | JVal.null => true
  | _ => false

/-- The operator `a || b`. -/
def jsOr (a b : JVal) : JVal := if a.truthy then a else b

/-- The operator `a && b`. -/
def jsAnd (a b : JVal) : JVal := if a.truthy then b else a

/-- A property read `v.key` on a value that is not nullish, for the property names the
adapters read (`data`, `message`, `content`, `text`, `candidates`, `output`, `parts`):
none of them is defined on a string, a number, a boolean or an array. -/
def getProp (v : JVal) (key : String) : JVal :=
  match v with
  | JVal.obj fields => (fields.lookup key).getD JVal.undefined
  | _ => JVal.undefined

/-- The optional chain `v?.key`. -/
def optChain (v : JVal) (key : String) : JVal :=
  if v.nullish then JVal.undefined else getProp v key

/-- The element read `v[0]` on a value that is not nullish. -/
def index0 (v : JVal) : JVal :=
  match v with
  | JVal.arr items => items.head?.getD JVal.undefined
  | JVal.str s => (s.toList.head?.map fun c => JVal.str (String.singleton c)).getD JVal.undefined
  | JVal.obj fields => (fields.lookup "0").getD JVal.undefined
  | _ => JVal.undefined


/-! ## The response normalizer -/

/-- The function `extractJsonFromContent(content)` of `llm.mjs`. -/
def extractJsonFromContent (content : JVal) : Except String Json :=
  if !content.truthy || content.typeof != "string" then
    Except.error "No content to parse"
  else
    match indexOf '\x7b' content.chars with
    | none => Except.error "No JSON object found in model response"
    | some idx =>
      let jsonText := content.chars.drop idx
      match jsonParse jsonText with
      | some v => Except.ok v
      | none =>
        -- Try to be forgiving: remove trailing characters after last closing brace
        match lastIndexOf '\x7d' jsonText with
        | some last =>
          match jsonParse (jsonText.take (last + 1)) with
          | some v => Except.ok v
          | none => Except.error "Failed to parse JSON from model response"
        | none => Except.error "Failed to parse JSON from model response"

/-! ## The external collaborators -/

/-- The options bag `opts`: its recognized properties; `undefined` is an absent one. -/
structure Opts where
  model : JVal := JVal.undefined
  language : JVal := JVal.undefined
  baseUrl : JVal := JVal.undefined
  apiKey : JVal := JVal.undefined
  mimeType : JVal := JVal.undefined
  timeout : JVal := JVal.undefined

/-- A call to an external collaborator, with its arguments. -/
inductive Event where
  | recognize (image : List UInt8) (language : JVal)
  | post (url : String) (body : JVal) (config : JVal)
  | generateContent (apiKey : JVal) (model : JVal) (image : List UInt8) (mimeType : JVal)
      (promptText : String)

/-- The event is an HTTP request. -/
def Event.isPost : Event → Bool
  | Event.post _ _ _ => true
  | _ => false

/-- The event is a call of the recognizer. -/
def Event.isRecognize : Event → Bool
  | Event.recognize _ _ => true
  | _ => false

/-- The time-out an HTTP request carries: the `timeout` of its configuration, `undefined`
when there is none (the HTTP client then waits without bound). -/
def Event.timeout : Event → JVal
  | Event.post _ _ config => optChain config "timeout"
  | _ => JVal.undefined

/-- The surroundings of a call: `process.env`, `Tesseract.recognize` (the `data` of its
result, or the error it rejects with), `axios.post` (the response object, or the error),
the Gemini client (`new GoogleGenAI` and `generateContent`), `JSON.stringify`, and the
conversion of a value that is not a string inside a template literal. -/
structure World where
  env : String → Option String
  recognize : List UInt8 → JVal → Except String JVal
  post : String → JVal → JVal → Except String JVal
  genaiLoaded : Bool
  generateContent : JVal → JVal → List UInt8 → JVal → String → Except String JVal
  stringify : JVal → JVal
  display : JVal → String

/-- The outcome of an asynchronous call: the value it resolves to or the error it rejects
with, and the calls it made to the external collaborators, in order. -/
structure Run (α : Type) where
  result : Except String α
  trace : List Event

/-- A read `process.env.NAME`. -/
def envVal (w : World) (name : String) : JVal :=
  match w.env name with
  | some s => JVal.str s
  | none => JVal.undefined

/-- A value inside a template literal. -/
def interpolate (w : World) (v : JVal) : String :=
  match v with
  | JVal.str s => s
  | _ => w.display v

/-- The constant `PROMPT`. -/
def PROMPT : String :=
  String.join [
    "\n",
    "You are an invoice data extraction engine.\n",
    "\n",
    "Extract invoice data as VALID JSON ONLY.\n",
    "\n",
    "Schema:\n",
    "\x7b\n",
    "  \"invoice_number\": \"\",\n",
    "  \"invoice_date\": \"\",\n",
    "  \"vendor_name\": \"\",\n",
    "  \"vendor_gst\": \"\",\n",
    "  \"customer_name\": \"\",\n",
    "  \"customer_gst\": \"\",\n",
    "  \"subtotal\": \"\",\n",
    "  \"gst_amount\": \"\",\n",
    "  \"total_amount\": \"\",\n",
    "  \"line_items\": [\n",
    "    \x7b\n",
    "      \"description\": \"\",\n",
    "      \"quantity\": \"\",\n",
    "      \"unit_price\": \"\",\n",
    "      \"amount\": \"\"\n",
    "    \x7d\n",
    "  ]\n",
    "\x7d\n",
    "\n",
    "Rules:\n",
    "- Output ONLY JSON\n",
    "- No markdown\n",
    "- No explanation\n",
    "- Empty string if missing\n"]

/-- The prompt of the OCR-backed adapters, around the recognized text. -/
def textPrompt (w : World) (text : JVal) : String :=
  PROMPT ++ "\n\nInvoice Text:\n" ++ interpolate w text ++ "\n\nJSON:"

/-- The expression `baseUrl.replace(/\/$/, '')` on a string: one trailing slash less. -/
def stripTrailingSlash (s : String) : String :=
  if s.toList.getLast? = some '/' then String.mk s.toList.dropLast else s

/-- The URL of the request: a base URL that is not a string has no `replace` method. -/
def generateUrl (baseUrl : JVal) : Except String String :=
  match baseUrl with
  | JVal.str s => Except.ok (stripTrailingSlash s ++ "/api/generate")
  | _ => Except.error "baseUrl.replace is not a function"

/-- The text content of a response, as each HTTP adapter computes it:
`message = response?.data?.message || response?.data` and
`content = (message && (message.content || message)) || ''`. -/
def responseContent (response : JVal) : JVal :=
  let message := jsOr (optChain (optChain response "data") "message") (optChain response "data")
  jsOr (jsAnd message (jsOr (getProp message "content") message)) (JVal.str "")

/-! ## The adapters -/

/-- The language `runOCR` passes to the recognizer. -/
def ocrLanguage (w : World) (opts : Opts) : JVal :=
  jsOr (jsOr opts.language (envVal w "OCR_LANGUAGE")) (JVal.str "eng")

/-- The function `runOCR(imageBuffer, opts)`: the recognized text. -/
def runOCR (w : World) (imageBuffer : List UInt8) (opts : Opts) : Run JVal :=
  let language := ocrLanguage w opts
  match w.recognize imageBuffer language with
  | Except.error e => ⟨Except.error e, [Event.recognize imageBuffer language]⟩
  | Except.ok data =>
    ⟨Except.ok (jsOr (optChain data "text") (JVal.str "")), [Event.recognize imageBuffer language]⟩

/-- The body of the request of the OCR-backed adapters. -/
def generateBody (w : World) (model text : JVal) : JVal :=
  JVal.obj [("model", model), ("prompt", JVal.str (textPrompt w text)),
    ("stream", JVal.bool false)]

/-- The function `parseWithGemma(imageBuffer, opts)`. -/
def parseWithGemma (w : World) (imageBuffer : List UInt8) (opts : Opts) : Run Json :=
  let ocr := runOCR w imageBuffer opts
  match ocr.result with
  | Except.error e => ⟨Except.error e, ocr.trace⟩
  | Except.ok text =>
    let url := "http://localhost:11434/api/generate"
    let body := generateBody w (jsOr opts.model (JVal.str "gemma3")) text
    match w.post url body JVal.undefined with
    | Except.error e => ⟨Except.error e, ocr.trace ++ [Event.post url body JVal.undefined]⟩
    | Except.ok response =>
      ⟨extractJsonFromContent (responseContent response),
        ocr.trace ++ [Event.post url body JVal.undefined]⟩

/-- The base URL `parseWithOllamaLocal` resolves. -/
def localBaseUrl (w : World) (opts : Opts) : JVal :=
  jsOr (jsOr opts.baseUrl (envVal w "OLLAMA_LOCAL_URL")) (JVal.str "http://localhost:11434")

/-- The function `parseWithOllamaLocal(imageBuffer, opts)`. -/
def parseWithOllamaLocal (w : World) (imageBuffer : List UInt8) (opts : Opts) : Run Json :=
  let ocr := runOCR w imageBuffer opts
  match ocr.result with
  | Except.error e => ⟨Except.error e, ocr.trace⟩
  | Except.ok text =>
    let model := jsOr opts.model (JVal.str "gemma3")
    let baseUrl := localBaseUrl w opts
    let body := generateBody w model text
    match generateUrl baseUrl with
    | Except.error e => ⟨Except.error e, ocr.trace⟩
    | Except.ok url =>
      let config := JVal.obj [("timeout", jsOr opts.timeout (JVal.num 120000))]
      match w.post url body config with
      | Except.error e => ⟨Except.error e, ocr.trace ++ [Event.post url body config]⟩
      | Except.ok response =>
        ⟨extractJsonFromContent (responseContent response),
          ocr.trace ++ [Event.post url body config]⟩

/-- The base URL `parseWithOllamaCloud` resolves. -/
def cloudBaseUrl (w : World) (opts : Opts) : JVal :=
  jsOr opts.baseUrl (envVal w "OLLAMA_CLOUD_URL")

/-- The API key `parseWithOllamaCloud` resolves. -/
def cloudApiKey (w : World) (opts : Opts) : JVal :=
  jsOr opts.apiKey (envVal w "OLLAMA_API_KEY")

/-- The headers of the cloud request: an `Authorization` header when there is a key. -/
def cloudHeaders (w : World) (apiKey : JVal) : JVal :=
  if apiKey.truthy then
    JVal.obj [("Authorization", JVal.str ("Bearer " ++ interpolate w apiKey))]
  else JVal.obj []

/-- The function `parseWithOllamaCloud(imageBuffer, opts)`. -/
def parseWithOllamaCloud (w : World) (imageBuffer : List UInt8) (opts : Opts) : Run Json :=
  let ocr := runOCR w imageBuffer opts
  match ocr.result with
  | Except.error e => ⟨Except.error e, ocr.trace⟩
  | Except.ok text =>
    let model := jsOr opts.model (JVal.str "gemma3")
    let baseUrl := cloudBaseUrl w opts
    let apiKey := cloudApiKey w opts
    if !baseUrl.truthy then
      ⟨Except.error "OLLAMA cloud baseUrl not provided (opts.baseUrl or OLLAMA_CLOUD_URL)",
        ocr.trace⟩
    else
      let headers := cloudHeaders w apiKey
      let body := generateBody w model text
      match generateUrl baseUrl with
      | Except.error e => ⟨Except.error e, ocr.trace⟩
      | Except.ok url =>
        let config := JVal.obj [("headers", headers),
          ("timeout", jsOr opts.timeout (JVal.num 120000))]
        match w.post url body config with
        | Except.error e => ⟨Except.error e, ocr.trace ++ [Event.post url body config]⟩
        | Except.ok response =>
          ⟨extractJsonFromContent (responseContent response),
            ocr.trace ++ [Event.post url body config]⟩

/-- The API key `parseWithGemini` resolves. -/
def geminiApiKey (w : World) (opts : Opts) : JVal :=
  jsOr opts.apiKey (envVal w "GOOGLE_API_KEY")

/-- The first alternative of the content of a Gemini response,
`data?.candidates?.[0]?.content.parts[0].text`; `none` is the `TypeError` of a property
read on `undefined` or `null`. -/
def geminiPartsText (data : JVal) : Option JVal :=
  let candidates := optChain data "candidates"
  if candidates.nullish then some JVal.undefined
  else if (index0 candidates).nullish then some JVal.undefined
  else
    let content := getProp (index0 candidates) "content"
    if content.nullish then none
    else if (getProp content "parts").nullish then none
    else if (index0 (getProp content "parts")).nullish then none
    else some (getProp (index0 (getProp content "parts")) "text")

/-- The optional chain `data?.key?.[0]?.content`. -/
def firstContent (data : JVal) (key : String) : JVal :=
  if (optChain data key).nullish then JVal.undefined
  else if (index0 (optChain data key)).nullish then JVal.undefined
  else getProp (index0 (optChain data key)) "content"

/-- The content `parseWithGemini` takes from a response; `none` is a thrown `TypeError`. -/
def geminiContent (w : World) (data : JVal) : Option JVal :=
  match geminiPartsText data with
  | none => none
  | some partsText =>
    some (jsOr (jsOr (jsOr (jsOr (jsOr partsText (firstContent data "candidates"))
      (firstContent data "output")) (optChain (optChain data "output") "text"))
      (optChain data "text")) (w.stringify data))

/-- The function `parseWithGemini(imageBuffer, opts)`. An error inside the `try` block is
caught and logged, and the statement after the block, `return
extractJsonFromContent(content)`, then reads a variable that is not in scope: a
`ReferenceError`. The construction of the client and its call are one event. -/
def parseWithGemini (w : World) (imageBuffer : List UInt8) (opts : Opts) : Run JVal :=
  let apiKey := geminiApiKey w opts
  let model := jsOr opts.model (JVal.str "gemini-2.5-flash")
  if !apiKey.truthy then
    ⟨Except.error "Google API key not provided (opts.apiKey or GOOGLE_API_KEY)", []⟩
  else
    let promptText :=
      PROMPT ++ "\n\nInvoice Image attached. Extract invoice fields and return VALID JSON ONLY."
    if w.genaiLoaded then
      let mimeType := jsOr opts.mimeType (JVal.str "image/png")
      let call := Event.generateContent apiKey model imageBuffer mimeType promptText
      match w.generateContent apiKey model imageBuffer mimeType promptText with
      | Except.error _ => ⟨Except.error "content is not defined", [call]⟩
      | Except.ok resp =>
        let data := jsOr (jsOr (optChain resp "data") resp) (JVal.obj [])
        match geminiContent w data with
        | none => ⟨Except.error "content is not defined", [call]⟩
        | some content => ⟨Except.ok content, [call]⟩
    else ⟨Except.error "content is not defined", []⟩

/-! ## Scenarios -/

/-- The JSON text of the invoice of the end-to-end scenario. -/
def invoiceText : String :=
  String.join [
    "\x7b\"invoice_number\":\"123\",\"invoice_date\":\"\",\"vendor_name\":\"\",",
    "\"vendor_gst\":\"\",\"customer_name\":\"\",\"customer_gst\":\"\",\"subtotal\":\"\",",
    "\"gst_amount\":\"\",\"total_amount\":\"45.00\",\"line_items\":[]\x7d"]

/-- The invoice of the end-to-end scenario. -/
def invoiceJson : Json :=
  Json.obj [("invoice_number", Json.str "123"), ("invoice_date", Json.str ""),
    ("vendor_name", Json.str ""), ("vendor_gst", Json.str ""), ("customer_name", Json.str ""),
    ("customer_gst", Json.str ""), ("subtotal", Json.str ""), ("gst_amount", Json.str ""),
    ("total_amount", Json.str "45.00"), ("line_items", Json.arr [])]

/-- Surroundings of the end-to-end scenario: no environment value is set, the recognizer
reads `Invoice #123, Total: 45.00`, and the inference endpoint and the Gemini client answer
with the given body. No scenario reaches `JSON.stringify` or converts a value that is not a
string inside a template literal. -/
def scenarioWorld (body : JVal) : World where
  env := fun _ => none
  recognize := fun _ _ => Except.ok (JVal.obj [("text", JVal.str "Invoice #123, Total: 45.00")])
  post := fun _ _ _ => Except.ok (JVal.obj [("data", body), ("status", JVal.num 200)])
  genaiLoaded := true
  generateContent := fun _ _ _ _ _ => Except.ok body
  stringify := fun _ => JVal.undefined
  display := fun _ => ""

/-- Surroundings in which the recognizer rejects the image. -/
def unreadableWorld : World where
  env := fun _ => none
  recognize := fun _ _ => Except.error "Error attempting to read image."
  post := fun _ _ _ => Except.error "connect ECONNREFUSED"
  genaiLoaded := true
  generateContent := fun _ _ _ _ _ => Except.error "fetch failed"
  stringify := fun _ => JVal.undefined
  display := fun _ => ""

/-- Surroundings of the end-to-end scenario with the environment value `OCR_LANGUAGE` set
to `deu`. -/
def germanWorld (body : JVal) : World :=
  { scenarioWorld body with env := fun name => if name = "OCR_LANGUAGE" then some "deu" else none }

/-- The first bytes of a PNG image. -/
def pngBytes : List UInt8 := [137, 80, 78, 71, 13, 10, 26, 10]

/-- A response body of the shape with a `response` property. -/
def responseBody (s : String) : JVal := JVal.obj [("response", JVal.str s)]

/-- A response body of the shape with a `message` that has a `content`. -/
def messageBody (s : String) : JVal :=
  JVal.obj [("message", JVal.obj [("content", JVal.str s)])]

/-- The response object of the HTTP client around a body. -/
def httpResponse (body : JVal) : JVal := JVal.obj [("data", body)]

/-- A Gemini response whose first candidate has the given text as its first part. -/
def candidateBody (text : String) : JVal :=
  JVal.obj [("candidates", JVal.arr [JVal.obj [("content",
    JVal.obj [("parts", JVal.arr [JVal.obj [("text", JVal.str text)]]),
      ("role", JVal.str "model")])]])]

/-! ## Predicates of the statements -/

/-- Every character of the list is JSON whitespace. -/
def AllWs (w : List Char) : Prop := ∀ x ∈ w, isWs x = true

instance : DecidablePred AllWs :=
  fun w => inferInstanceAs (Decidable (∀ x ∈ w, isWs x = true))

/-- The list does not begin with a whitespace character. -/
def NoLeadWs (s : List Char) : Prop := ∀ x ∈ s.head?, isWs x = false

/-- Extension property of a parsed value: the parse reads a non-empty part of the input,
which ends in a closing brace when the value is an object, and reads the same part whatever
follows it, with any fuel at least its length. -/
def ValueExt (s : List Char) (v : Json) (r : List Char) : Prop :=
  ∃ c, s = c ++ r ∧ c ≠ [] ∧ (v.isObj = true → c.getLast? = some '\x7d') ∧
    ∀ m t, c.length ≤ m → (v.isNum = true → t.head? = r.head?) →
      parseValue m (c ++ t) = some (v, t)

/-- Extension property of parsed object members. -/
def MembersExt (s : List Char) (kvs : List (String × Json)) (r : List Char) : Prop :=
  ∃ c, s = c ++ r ∧ c ≠ [] ∧ c.getLast? = some '\x7d' ∧
    ∀ m t, c.length ≤ m → parseMembers m (c ++ t) = some (kvs, t)

/-- Extension property of parsed array elements. -/
def ElementsExt (s : List Char) (xs : List Json) (r : List Char) : Prop :=
  ∃ c, s = c ++ r ∧ c ≠ [] ∧
    ∀ m t, c.length ≤ m → parseElements m (c ++ t) = some (xs, t)

/-! ## The parser reads the same text whatever follows it -/

theorem skipWs_allWs_append (w t : List Char) (hw : AllWs w) : skipWs (w ++ t) = skipWs t := by
  induction w with
  | nil => rfl
  | cons x xs ih =>
    have hx : isWs x = true := hw x (List.mem_cons_self _ _)
    have hxs : AllWs xs := fun y hy => hw y (List.mem_cons_of_mem _ hy)
    simp [skipWs, hx, ih hxs]

theorem skipWs_noLead (s : List Char) (h : NoLeadWs s) : skipWs s = s := by
  cases s with
  | nil => rfl
  | cons x xs =>
    have hx : isWs x = false := h x (by simp)
    simp [skipWs, hx]

theorem skipWs_decomp (s : List Char) :
    ∃ w, AllWs w ∧ s = w ++ skipWs s ∧ NoLeadWs (skipWs s) := by
  induction s with
  | nil => exact ⟨[], (by intro x hx; cases hx), rfl, (by intro x hx; simp [skipWs] at hx)⟩
  | cons x xs ih =>
    by_cases hx : isWs x = true
    · obtain ⟨w, hw, hs, hn⟩ := ih
      refine ⟨x :: w, ?_, ?_, ?_⟩
      · intro y hy
        rcases List.mem_cons.mp hy with rfl | hy
        · exact hx
        · exact hw y hy
      · simp only [skipWs, hx, if_true, List.cons_append]
        rw [← hs]
      · simpa [skipWs, hx] using hn
    · have hx2 : isWs x = false := by simpa using hx
      refine ⟨[], (by intro y hy; cases hy), ?_, ?_⟩
      · simp [skipWs, hx2]
      · intro y hy
        simp [skipWs, hx2] at hy
        subst hy
        exact hx2

theorem noLead_append_of_ne_nil (c r t : List Char) (hc : c ≠ []) (h : NoLeadWs (c ++ r)) :
    NoLeadWs (c ++ t) := by
  cases c with
  | nil => exact absurd rfl hc
  | cons x xs => simpa [NoLeadWs] using h

theorem head_append_congr (x r t : List Char) (h : t.head? = r.head?) :
    (x ++ t).head? = (x ++ r).head? := by
  cases x with
  | nil => simpa using h
  | cons a as => simp

theorem takeWhile_ext (p : Char → Bool) (r t : List Char)
    (h : t.head? = (r.dropWhile p).head?) :
    (r.takeWhile p ++ t).takeWhile p = r.takeWhile p ∧
      (r.takeWhile p ++ t).dropWhile p = t := by
  induction r with
  | nil =>
    have ht : t = [] := by simpa using h
    subst ht
    simp
  | cons x xs ih =>
    by_cases hx : p x = true
    · simp only [List.takeWhile_cons, List.dropWhile_cons, hx, if_true] at h ⊢
      obtain ⟨h1, h2⟩ := ih h
      simp [List.takeWhile_cons, List.dropWhile_cons, hx, h1, h2]
    · have hx2 : p x = false := by simpa using hx
      simp only [List.takeWhile_cons, List.dropWhile_cons, hx2] at h ⊢
      cases t with
      | nil => simp at h
      | cons y ys =>
        simp at h
        subst h
        simp [List.takeWhile_cons, List.dropWhile_cons, hx2]

theorem hexN_ext (n : Nat) : ∀ b r t : List Char,
    hexN n (b ++ '\x22' :: r) = hexN n (b ++ '\x22' :: t) := by
  induction n with
  | zero => intro b r t; rfl
  | succ n ih =>
    intro b r t
    cases b with
    | nil =>
      have hq : isHex '\x22' = false := by decide
      simp [hexN, hq]
    | cons a b => simp [hexN, ih b r t]

theorem parseStrBody_ext (s : List Char) : ∀ e b r, parseStrBody e s = some (b, r) →
    s = b ++ '\x22' :: r ∧ ∀ t, parseStrBody e (b ++ '\x22' :: t) = some (b, t) := by
  induction s with
  | nil => intro e b r h; cases e <;> simp [parseStrBody] at h
  | cons c cs ih =>
    intro e b r h
    cases e with
    | true =>
      simp only [parseStrBody] at h
      split at h
      · rename_i hc
        simp at h
        obtain ⟨b1, h1, rfl⟩ := h
        obtain ⟨hs, ht⟩ := ih false b1 r h1
        refine ⟨by simp [hs], fun t => ?_⟩
        have hx : hexN 4 (b1 ++ '\x22' :: t) = hexN 4 cs := by
          rw [hs]; exact hexN_ext 4 b1 t r
        have hp : parseStrBody true (c :: (b1 ++ '\x22' :: t)) = some (c :: b1, t) := by
          rw [parseStrBody, hx, if_pos hc, ht t]; rfl
        simpa using hp
      · simp at h
    | false =>
      simp only [parseStrBody] at h
      split at h
      · simp at h
        obtain ⟨rfl, rfl⟩ := h
        rename_i hc
        subst hc
        simp [parseStrBody]
      · split at h
        · rename_i hq hb
          simp at h
          obtain ⟨b1, h1, rfl⟩ := h
          obtain ⟨hs, ht⟩ := ih true b1 r h1
          refine ⟨by simp [hs], fun t => ?_⟩
          simp [parseStrBody, hq, hb, ht t]
        · split at h
          · simp at h
          · rename_i hq hb hl
            simp at h
            obtain ⟨b1, h1, rfl⟩ := h
            obtain ⟨hs, ht⟩ := ih false b1 r h1
            refine ⟨by simp [hs], fun t => ?_⟩
            simp [parseStrBody, hq, hb, hl, ht t]

theorem parseInt_ext (s i r : List Char) (h : parseInt s = some (i, r)) :
    s = i ++ r ∧ i ≠ [] ∧ ∀ t, t.head? = r.head? → parseInt (i ++ t) = some (i, t) := by
  cases s with
  | nil => simp [parseInt] at h
  | cons c cs =>
    simp only [parseInt] at h
    split at h
    · rename_i h0
      simp at h
      obtain ⟨rfl, rfl⟩ := h
      refine ⟨by simp, by simp, fun t _ => ?_⟩
      simp [parseInt, h0]
    · rename_i h0
      split at h
      · rename_i h1
        simp at h
        obtain ⟨rfl, rfl⟩ := h
        refine ⟨by simp [List.takeWhile_append_dropWhile], by simp, fun t ht => ?_⟩
        obtain ⟨e1, e2⟩ := takeWhile_ext Char.isDigit cs t ht
        simp [parseInt, h0, h1, e1, e2]
      · simp at h

theorem parseFrac_ext (s f r : List Char) (h : parseFrac s = some (f, r)) :
    s = f ++ r ∧ ∀ t, t.head? = r.head? → parseFrac (f ++ t) = some (f, t) := by
  cases s with
  | nil =>
    simp [parseFrac] at h
    obtain ⟨rfl, rfl⟩ := h
    refine ⟨rfl, fun t ht => ?_⟩
    have : t = [] := by simpa using ht
    subst this
    simp [parseFrac]
  | cons c cs =>
    simp only [parseFrac] at h
    split at h
    · rename_i h0
      split at h
      · simp at h
      · rename_i h1
        simp at h
        obtain ⟨rfl, rfl⟩ := h
        refine ⟨by simp [List.takeWhile_append_dropWhile], fun t ht => ?_⟩
        obtain ⟨e1, e2⟩ := takeWhile_ext Char.isDigit cs t ht
        simp only [List.cons_append, parseFrac, h0, if_true, e1, e2, h1]
        simp
    · rename_i h0
      simp at h
      obtain ⟨rfl, rfl⟩ := h
      refine ⟨rfl, fun t ht => ?_⟩
      cases t with
      | nil => simp at ht
      | cons y ys =>
        simp at ht
        subst ht
        simp [parseFrac, h0]

theorem parseExpDigits_ext (pre s l r : List Char) (h : parseExpDigits pre s = some (l, r)) :
    pre ++ s = l ++ r ∧ (s.takeWhile Char.isDigit) ≠ [] ∧ l = pre ++ s.takeWhile Char.isDigit ∧
      ∀ t, t.head? = r.head? →
        parseExpDigits pre (s.takeWhile Char.isDigit ++ t) = some (l, t) := by
  simp only [parseExpDigits] at h
  split at h
  · simp at h
  · rename_i h1
    simp at h
    obtain ⟨rfl, rfl⟩ := h
    refine ⟨by simp [List.takeWhile_append_dropWhile], by simpa using h1, rfl, fun t ht => ?_⟩
    obtain ⟨e1, e2⟩ := takeWhile_ext Char.isDigit s t ht
    simp only [parseExpDigits, e1, e2, h1]
    simp

theorem parseExp_ext (s l r : List Char) (h : parseExp s = some (l, r)) :
    s = l ++ r ∧ ∀ t, t.head? = r.head? → parseExp (l ++ t) = some (l, t) := by
  cases s with
  | nil =>
    simp [parseExp] at h
    obtain ⟨rfl, rfl⟩ := h
    refine ⟨rfl, fun t ht => ?_⟩
    have : t = [] := by simpa using ht
    subst this
    simp [parseExp]
  | cons c cs =>
    simp only [parseExp] at h
    split at h
    · rename_i h0
      cases cs with
      | nil => simp at h
      | cons sg r1 =>
        simp only at h
        split at h
        · rename_i h1
          obtain ⟨e0, hne, rfl, hx⟩ := parseExpDigits_ext _ _ _ _ h
          refine ⟨by simpa using e0, fun t ht => ?_⟩
          have := hx t ht
          simp only [List.cons_append, List.nil_append, parseExp, h0, if_true, h1]
          simpa using this
        · rename_i h1
          obtain ⟨e0, hne, rfl, hx⟩ := parseExpDigits_ext _ _ _ _ h
          refine ⟨by simpa using e0, fun t ht => ?_⟩
          have := hx t ht
          have hd : Char.isDigit sg = true := by
            by_contra hd
            simp [List.takeWhile_cons, hd] at hne
          simp only [List.takeWhile_cons, hd, if_true] at this ⊢
          simp only [List.cons_append, List.nil_append, parseExp, h0, if_true, h1]
          simpa [List.takeWhile_cons, hd] using this
    · rename_i h0
      simp at h
      obtain ⟨rfl, rfl⟩ := h
      refine ⟨rfl, fun t ht => ?_⟩
      cases t with
      | nil => simp at ht
      | cons y ys =>
        simp at ht
        subst ht
        simp only [List.nil_append, parseExp, h0]
        simp

theorem parseUnsigned_ext (s l r : List Char) (h : parseUnsigned s = some (l, r)) :
    s = l ++ r ∧ l ≠ [] ∧ l.head? = s.head? ∧
      ∀ t, t.head? = r.head? → parseUnsigned (l ++ t) = some (l, t) := by
  simp only [parseUnsigned] at h
  split at h
  · simp at h
  · rename_i i r1 hi
    split at h
    · simp at h
    · rename_i f r2 hf
      split at h
      · simp at h
      · rename_i e r3 he
        simp at h
        obtain ⟨rfl, rfl⟩ := h
        obtain ⟨si, ine, xi⟩ := parseInt_ext _ _ _ hi
        obtain ⟨sf, xf⟩ := parseFrac_ext _ _ _ hf
        obtain ⟨se, xe⟩ := parseExp_ext _ _ _ he
        refine ⟨?_, by simp [ine], ?_, fun t ht => ?_⟩
        · rw [si, sf, se]; simp
        · rw [si]
          cases i with
          | nil => exact absurd rfl ine
          | cons a as => simp
        · have h3 := xe t ht
          have h2 := xf (e ++ t) (by rw [se]; exact head_append_congr e r3 t ht)
          have h1 := xi (f ++ (e ++ t)) (by
            rw [sf, se]
            exact head_append_congr f (e ++ r3) (e ++ t) (head_append_congr e r3 t ht))
          simp only [parseUnsigned, List.append_assoc, h1, h2, h3]

theorem parseNumber_ext (s l r : List Char) (h : parseNumber s = some (l, r)) :
    s = l ++ r ∧ l ≠ [] ∧ l.head? = s.head? ∧
      ∀ t, t.head? = r.head? → parseNumber (l ++ t) = some (l, t) := by
  cases s with
  | nil => simp [parseNumber] at h
  | cons c cs =>
    simp only [parseNumber] at h
    split at h
    · rename_i hm
      simp at h
      obtain ⟨l1, h1, rfl⟩ := h
      obtain ⟨e1, _, _, x1⟩ := parseUnsigned_ext _ _ _ h1
      refine ⟨by simp [e1], by simp, by simp, fun t ht => ?_⟩
      simp [parseNumber, hm, x1 t ht]
    · rename_i hm
      obtain ⟨e1, ne1, hd1, x1⟩ := parseUnsigned_ext _ _ _ h
      refine ⟨e1, ne1, hd1, fun t ht => ?_⟩
      cases l with
      | nil => exact absurd rfl ne1
      | cons a as =>
        have ha : a = c := by simpa using hd1
        subst ha
        have := x1 t ht
        simp only [List.cons_append] at this ⊢
        simp only [parseNumber, hm, if_false]
        exact this

theorem expect_ext (l : List Char) : ∀ s r, expect l s = some r →
    s = l ++ r ∧ ∀ t, expect l (l ++ t) = some t := by
  induction l with
  | nil =>
    intro s r h
    simp [expect] at h
    exact ⟨by simp [h], fun t => by simp [expect]⟩
  | cons x xs ih =>
    intro s r h
    cases s with
    | nil => simp [expect] at h
    | cons c cs =>
      simp only [expect] at h
      split at h
      · rename_i hc
        obtain ⟨e1, x1⟩ := ih cs r h
        exact ⟨by simp [hc, e1], fun t => by simp [expect, x1 t]⟩
      · simp at h

theorem parseScalar_ext (s : List Char) (v : Json) (r : List Char)
    (h : parseScalar s = some (v, r)) :
    ∃ c, s = c ++ r ∧ c ≠ [] ∧ v.isObj = false ∧
      ∀ t, (v.isNum = true → t.head? = r.head?) → parseScalar (c ++ t) = some (v, t) := by
  cases s with
  | nil => simp [parseScalar] at h
  | cons c cs =>
    simp only [parseScalar] at h
    split at h
    · rename_i hq
      simp at h
      obtain ⟨b, hb, rfl⟩ := h
      obtain ⟨e1, x1⟩ := parseStrBody_ext _ _ _ _ hb
      refine ⟨c :: (b ++ ['\x22']), by simp [e1], by simp, rfl, fun t _ => ?_⟩
      simp [parseScalar, hq, x1 t]
    · rename_i hq
      split at h
      · rename_i ht
        simp at h
        obtain ⟨hb, rfl⟩ := h
        obtain ⟨e1, x1⟩ := expect_ext _ _ _ hb
        refine ⟨c :: ['r', 'u', 'e'], by simp [e1], by simp, rfl, fun t _ => ?_⟩
        simpa [parseScalar, hq, ht] using x1 t
      · rename_i ht
        split at h
        · rename_i hf
          simp at h
          obtain ⟨hb, rfl⟩ := h
          obtain ⟨e1, x1⟩ := expect_ext _ _ _ hb
          refine ⟨c :: ['a', 'l', 's', 'e'], by simp [e1], by simp, rfl, fun t _ => ?_⟩
          simpa [parseScalar, hq, ht, hf] using x1 t
        · rename_i hf
          split at h
          · rename_i hn
            simp at h
            obtain ⟨hb, rfl⟩ := h
            obtain ⟨e1, x1⟩ := expect_ext _ _ _ hb
            refine ⟨c :: ['u', 'l', 'l'], by simp [e1], by simp, rfl, fun t _ => ?_⟩
            simpa [parseScalar, hq, ht, hf, hn] using x1 t
          · rename_i hn
            simp at h
            obtain ⟨l, hl, rfl⟩ := h
            obtain ⟨e1, ne1, hd1, x1⟩ := parseNumber_ext _ _ _ hl
            refine ⟨l, e1, ne1, rfl, fun t hcond => ?_⟩
            cases l with
            | nil => exact absurd rfl ne1
            | cons a as =>
              have ha : a = c := by simpa using hd1
              subst ha
              have := x1 t (hcond rfl)
              simp only [List.cons_append] at this ⊢
              simp [parseScalar, hq, ht, hf, hn, this]

theorem parseValue_succ (n : Nat) (c : Char) (cs : List Char) :
    parseValue (n + 1) (c :: cs) =
      if c = '\x7b' then
        match skipWs cs with
        | [] => none
        | d :: r =>
          if d = '\x7d' then some (Json.obj [], r)
          else (parseMembers n (d :: r)).map fun p => (Json.obj p.1, p.2)
      else if c = '[' then
        match skipWs cs with
        | [] => none
        | d :: r =>
          if d = ']' then some (Json.arr [], r)
          else (parseElements n (d :: r)).map fun p => (Json.arr p.1, p.2)
      else parseScalar (c :: cs) := by
  rw [parseValue]

theorem parseMembers_succ (n : Nat) (q : Char) (cs : List Char) :
    parseMembers (n + 1) (q :: cs) =
      if q = '\x22' then
        match parseStrBody false cs with
        | none => none
        | some (k, r0) =>
          match skipWs r0 with
          | [] => none
          | col :: r1 =>
            if col = ':' then
              match parseValue n (skipWs r1) with
              | none => none
              | some (v, r2) =>
                match skipWs r2 with
                | [] => none
                | d :: r3 =>
                  if d = ',' then
                    (parseMembers n (skipWs r3)).map fun p => ((String.mk k, v) :: p.1, p.2)
                  else if d = '\x7d' then some ([(String.mk k, v)], r3)
                  else none
            else none
      else none := by
  rw [parseMembers]

theorem parseElements_succ (n : Nat) (s : List Char) :
    parseElements (n + 1) s =
      match parseValue n s with
      | none => none
      | some (v, r2) =>
        match skipWs r2 with
        | [] => none
        | d :: r3 =>
          if d = ',' then
            (parseElements n (skipWs r3)).map fun p => (v :: p.1, p.2)
          else if d = ']' then some ([v], r3)
          else none := by
  rw [parseElements]

theorem skipWs_cons_decomp (s : List Char) (d : Char) (r : List Char)
    (h : skipWs s = d :: r) : ∃ w, AllWs w ∧ s = w ++ d :: r ∧ isWs d = false := by
  obtain ⟨w, hw, hs, hn⟩ := skipWs_decomp s
  rw [h] at hs hn
  exact ⟨w, hw, hs, hn d (by simp)⟩

theorem skipWs_ws_cons (w : List Char) (d : Char) (t : List Char) (hw : AllWs w)
    (hd : isWs d = false) : skipWs (w ++ d :: t) = d :: t := by
  rw [skipWs_allWs_append w _ hw]
  simp [skipWs, hd]

theorem skipWs_ws_append (w c r t : List Char) (hw : AllWs w) (hc : c ≠ [])
    (hn : NoLeadWs (c ++ r)) : skipWs (w ++ (c ++ t)) = c ++ t := by
  rw [skipWs_allWs_append w _ hw]
  exact skipWs_noLead _ (noLead_append_of_ne_nil c r t hc hn)

theorem members_step (n : Nat)
    (ihv : ∀ s v r, parseValue n s = some (v, r) → ValueExt s v r)
    (ihm : ∀ s kvs r, parseMembers n s = some (kvs, r) → MembersExt s kvs r)
    (s : List Char) (kvs : List (String × Json)) (r : List Char)
    (h : parseMembers (n + 1) s = some (kvs, r)) : MembersExt s kvs r := by
  cases s with
  | nil => simp [parseMembers] at h
  | cons q cs =>
    rw [parseMembers_succ] at h
    split at h
    · rename_i hq
      split at h
      · simp at h
      · rename_i k r0 hk
        obtain ⟨ek, xk⟩ := parseStrBody_ext _ _ _ _ hk
        split at h
        · simp at h
        · rename_i col r1 hcol
          obtain ⟨w0, hw0, e0, hc0⟩ := skipWs_cons_decomp _ _ _ hcol
          split at h
          · rename_i hcolon
            subst hcolon
            split at h
            · simp at h
            · rename_i v r2 hv
              obtain ⟨w1, hw1, e1, hn1⟩ := skipWs_decomp r1
              obtain ⟨cv, ev, hcv, _, xv⟩ := ihv _ _ _ hv
              split at h
              · simp at h
              · rename_i d r3 hd
                obtain ⟨w2, hw2, e2, hc2⟩ := skipWs_cons_decomp _ _ _ hd
                split at h
                · rename_i hcomma
                  subst hcomma
                  simp at h
                  obtain ⟨kvs1, hm, rfl⟩ := h
                  obtain ⟨w3, hw3, e3, hn3⟩ := skipWs_decomp r3
                  obtain ⟨cm, em, hcm, hlast, xm⟩ := ihm _ _ _ hm
                  have e1b : r1 = w1 ++ (cv ++ r2) := by rw [← ev]; exact e1
                  have e3b : r3 = w3 ++ (cm ++ r) := by rw [← em]; exact e3
                  have hnv : NoLeadWs (cv ++ r2) := by rw [← ev]; exact hn1
                  have hnm : NoLeadWs (cm ++ r) := by rw [← em]; exact hn3
                  refine ⟨q :: (k ++ '\x22' :: (w0 ++ ':' :: (w1 ++ (cv ++ (w2 ++ ',' :: (w3 ++ cm)))))),
                    ?_, by simp, ?_, ?_⟩
                  · rw [ek, e0, e1b, e2, e3b]; simp
                  · have : q :: (k ++ '\x22' :: (w0 ++ ':' :: (w1 ++ (cv ++ (w2 ++ ',' :: (w3 ++ cm))))))
                        = (q :: (k ++ '\x22' :: (w0 ++ ':' :: (w1 ++ (cv ++ (w2 ++ ',' :: w3)))))) ++ cm := by
                      simp
                    rw [this, List.getLast?_append, hlast]; rfl
                  · intro m t hm
                    obtain ⟨m1, rfl⟩ : ∃ m1, m = m1 + 1 := ⟨m - 1, by simp at hm; omega⟩
                    have hlv : cv.length ≤ m1 := by simp at hm; omega
                    have hlm : cm.length ≤ m1 := by simp at hm; omega
                    have s1 := xk (w0 ++ ':' :: (w1 ++ (cv ++ (w2 ++ ',' :: (w3 ++ (cm ++ t))))))
                    have s2 := skipWs_ws_cons w0 ':' (w1 ++ (cv ++ (w2 ++ ',' :: (w3 ++ (cm ++ t))))) hw0 hc0
                    have s3 := skipWs_ws_append w1 cv r2 (w2 ++ ',' :: (w3 ++ (cm ++ t))) hw1 hcv hnv
                    have s4 := xv m1 (w2 ++ ',' :: (w3 ++ (cm ++ t))) hlv (fun _ => by
                      rw [e2]; exact head_append_congr w2 _ _ (by simp))
                    have s5 := skipWs_ws_cons w2 ',' (w3 ++ (cm ++ t)) hw2 hc2
                    have s6 := skipWs_ws_append w3 cm r t hw3 hcm hnm
                    have s7 := xm m1 t hlm
                    simp only [List.cons_append, List.append_assoc]
                    rw [parseMembers_succ, if_pos hq, s1]
                    simp only []
                    rw [s2]
                    simp only [if_true]
                    rw [s3, s4]
                    simp only []
                    rw [s5]
                    simp only [if_true]
                    rw [s6, s7]
                    rfl
                · split at h
                  · rename_i hcomma hbrace
                    subst hbrace
                    simp at h
                    obtain ⟨rfl, rfl⟩ := h
                    have e1b : r1 = w1 ++ (cv ++ r2) := by rw [← ev]; exact e1
                    have hnv : NoLeadWs (cv ++ r2) := by rw [← ev]; exact hn1
                    refine ⟨q :: (k ++ '\x22' :: (w0 ++ ':' :: (w1 ++ (cv ++ (w2 ++ ['\x7d']))))),
                      ?_, by simp, ?_, ?_⟩
                    · rw [ek, e0, e1b, e2]; simp
                    · have : q :: (k ++ '\x22' :: (w0 ++ ':' :: (w1 ++ (cv ++ (w2 ++ ['\x7d'])))))
                          = (q :: (k ++ '\x22' :: (w0 ++ ':' :: (w1 ++ (cv ++ w2))))) ++ ['\x7d'] := by
                        simp
                      rw [this, List.getLast?_concat]
                    · intro m t hm
                      obtain ⟨m1, rfl⟩ : ∃ m1, m = m1 + 1 := ⟨m - 1, by simp at hm; omega⟩
                      have hlv : cv.length ≤ m1 := by simp at hm; omega
                      have s1 := xk (w0 ++ ':' :: (w1 ++ (cv ++ (w2 ++ '\x7d' :: t))))
                      have s2 := skipWs_ws_cons w0 ':' (w1 ++ (cv ++ (w2 ++ '\x7d' :: t))) hw0 hc0
                      have s3 := skipWs_ws_append w1 cv r2 (w2 ++ '\x7d' :: t) hw1 hcv hnv
                      have s4 := xv m1 (w2 ++ '\x7d' :: t) hlv (fun _ => by
                        rw [e2]; exact head_append_congr w2 _ _ (by simp))
                      have s5 := skipWs_ws_cons w2 '\x7d' t hw2 hc2
                      simp only [List.cons_append, List.append_assoc, List.nil_append]
                      rw [parseMembers_succ, if_pos hq, s1]
                      simp only []
                      rw [s2]
                      simp only [if_true]
                      rw [s3, s4]
                      simp only []
                      rw [s5]
                      simp only [if_neg hcomma, if_true]
                  · simp at h
          · simp at h
    · simp at h

theorem elements_step (n : Nat)
    (ihv : ∀ s v r, parseValue n s = some (v, r) → ValueExt s v r)
    (ihe : ∀ s xs r, parseElements n s = some (xs, r) → ElementsExt s xs r)
    (s : List Char) (xs : List Json) (r : List Char)
    (h : parseElements (n + 1) s = some (xs, r)) : ElementsExt s xs r := by
  rw [parseElements_succ] at h
  split at h
  · simp at h
  · rename_i v r2 hv
    obtain ⟨cv, ev, hcv, _, xv⟩ := ihv _ _ _ hv
    split at h
    · simp at h
    · rename_i d r3 hd
      obtain ⟨w2, hw2, e2, hc2⟩ := skipWs_cons_decomp _ _ _ hd
      split at h
      · rename_i hcomma
        subst hcomma
        simp at h
        obtain ⟨xs1, he, rfl⟩ := h
        obtain ⟨w3, hw3, e3, hn3⟩ := skipWs_decomp r3
        obtain ⟨ce, ee, hce, xe⟩ := ihe _ _ _ he
        have e3b : r3 = w3 ++ (ce ++ r) := by rw [← ee]; exact e3
        have hne : NoLeadWs (ce ++ r) := by rw [← ee]; exact hn3
        refine ⟨cv ++ (w2 ++ ',' :: (w3 ++ ce)), ?_, by simp [hcv], ?_⟩
        · rw [ev, e2, e3b]; simp
        · intro m t hm
          obtain ⟨m1, rfl⟩ : ∃ m1, m = m1 + 1 := ⟨m - 1, by
            have : 0 < cv.length := List.length_pos.mpr hcv
            simp at hm; omega⟩
          have hlv : cv.length ≤ m1 := by simp at hm; omega
          have hle : ce.length ≤ m1 := by simp at hm; omega
          have s4 := xv m1 (w2 ++ ',' :: (w3 ++ (ce ++ t))) hlv (fun _ => by
            rw [e2]; exact head_append_congr w2 _ _ (by simp))
          have s5 := skipWs_ws_cons w2 ',' (w3 ++ (ce ++ t)) hw2 hc2
          have s6 := skipWs_ws_append w3 ce r t hw3 hce hne
          have s7 := xe m1 t hle
          simp only [List.cons_append, List.append_assoc]
          rw [parseElements_succ, s4]
          simp only []
          rw [s5]
          simp only [if_true]
          rw [s6, s7]
          rfl
      · split at h
        · rename_i hcomma hbr
          subst hbr
          simp at h
          obtain ⟨rfl, rfl⟩ := h
          refine ⟨cv ++ (w2 ++ [']']), ?_, by simp [hcv], ?_⟩
          · rw [ev, e2]; simp
          · intro m t hm
            obtain ⟨m1, rfl⟩ : ∃ m1, m = m1 + 1 := ⟨m - 1, by simp at hm; omega⟩
            have hlv : cv.length ≤ m1 := by simp at hm; omega
            have s4 := xv m1 (w2 ++ ']' :: t) hlv (fun _ => by
              rw [e2]; exact head_append_congr w2 _ _ (by simp))
            have s5 := skipWs_ws_cons w2 ']' t hw2 hc2
            simp only [List.cons_append, List.append_assoc, List.nil_append]
            rw [parseElements_succ, s4]
            simp only []
            rw [s5]
            simp only [if_neg hcomma, if_true]
        · simp at h

theorem value_step (n : Nat)
    (ihm : ∀ s kvs r, parseMembers n s = some (kvs, r) → MembersExt s kvs r)
    (ihe : ∀ s xs r, parseElements n s = some (xs, r) → ElementsExt s xs r)
    (s : List Char) (v : Json) (r : List Char)
    (h : parseValue (n + 1) s = some (v, r)) : ValueExt s v r := by
  cases s with
  | nil => simp [parseValue] at h
  | cons c cs =>
    rw [parseValue_succ] at h
    split at h
    · rename_i hb
      split at h
      · simp at h
      · rename_i d r1 hd
        obtain ⟨w, hw, e0, hc0⟩ := skipWs_cons_decomp _ _ _ hd
        split at h
        · rename_i hclose
          subst hclose
          simp at h
          obtain ⟨rfl, rfl⟩ := h
          refine ⟨c :: (w ++ ['\x7d']), by rw [e0]; simp, by simp, ?_, ?_⟩
          · intro _
            have : c :: (w ++ ['\x7d']) = (c :: w) ++ ['\x7d'] := by simp
            rw [this, List.getLast?_concat]
          · intro m t hm _
            obtain ⟨m1, rfl⟩ : ∃ m1, m = m1 + 1 := ⟨m - 1, by simp at hm; omega⟩
            have s1 := skipWs_ws_cons w '\x7d' t hw hc0
            simp only [List.cons_append, List.append_assoc, List.nil_append]
            rw [parseValue_succ, if_pos hb, s1]
            simp only [if_true]
        · rename_i hclose
          simp at h
          obtain ⟨kvs, hm0, rfl⟩ := h
          obtain ⟨cm, em, hcm, hlast, xm⟩ := ihm _ _ _ hm0
          cases cm with
          | nil => exact absurd rfl hcm
          | cons a cm1 =>
            have ha : a = d := by
              have := congrArg List.head? em
              simpa using this.symm
            subst ha
            have hr1 : r1 = cm1 ++ r := by
              have := em
              simp only [List.cons_append, List.cons.injEq, true_and] at this
              exact this
            have hnl : NoLeadWs ((a :: cm1) ++ r) := by
              intro x hx
              simp at hx
              subst hx
              exact hc0
            refine ⟨c :: (w ++ (a :: cm1)), by rw [e0, hr1]; simp, by simp, ?_, ?_⟩
            · intro _
              have : c :: (w ++ (a :: cm1)) = (c :: w) ++ (a :: cm1) := by simp
              rw [this, List.getLast?_append, hlast]; rfl
            · intro m t hm _
              obtain ⟨m1, rfl⟩ : ∃ m1, m = m1 + 1 := ⟨m - 1, by simp at hm; omega⟩
              have hlm : (a :: cm1).length ≤ m1 := by simp at hm ⊢; omega
              have s1 := skipWs_ws_append w (a :: cm1) r t hw hcm hnl
              have s2 := xm m1 t hlm
              simp only [List.cons_append, List.append_assoc] at s1 s2 ⊢
              rw [parseValue_succ, if_pos hb, s1]
              simp only [if_neg hclose]
              rw [s2]
              rfl
    · rename_i hb
      split at h
      · rename_i hq
        split at h
        · simp at h
        · rename_i d r1 hd
          obtain ⟨w, hw, e0, hc0⟩ := skipWs_cons_decomp _ _ _ hd
          split at h
          · rename_i hclose
            subst hclose
            simp at h
            obtain ⟨rfl, rfl⟩ := h
            refine ⟨c :: (w ++ [']']), by rw [e0]; simp, by simp, ?_, ?_⟩
            · intro hobj
              simp [Json.isObj] at hobj
            · intro m t hm _
              obtain ⟨m1, rfl⟩ : ∃ m1, m = m1 + 1 := ⟨m - 1, by simp at hm; omega⟩
              have s1 := skipWs_ws_cons w ']' t hw hc0
              simp only [List.cons_append, List.append_assoc, List.nil_append]
              rw [parseValue_succ, if_neg hb, if_pos hq, s1]
              simp only [if_true]
          · rename_i hclose
            simp at h
            obtain ⟨xs, he0, rfl⟩ := h
            obtain ⟨ce, ee, hce, xe⟩ := ihe _ _ _ he0
            cases ce with
            | nil => exact absurd rfl hce
            | cons a ce1 =>
              have ha : a = d := by
                have := congrArg List.head? ee
                simpa using this.symm
              subst ha
              have hr1 : r1 = ce1 ++ r := by
                have := ee
                simp only [List.cons_append, List.cons.injEq, true_and] at this
                exact this
              have hnl : NoLeadWs ((a :: ce1) ++ r) := by
                intro x hx
                simp at hx
                subst hx
                exact hc0
              refine ⟨c :: (w ++ (a :: ce1)), by rw [e0, hr1]; simp, by simp, ?_, ?_⟩
              · intro hobj
                simp [Json.isObj] at hobj
              · intro m t hm _
                obtain ⟨m1, rfl⟩ : ∃ m1, m = m1 + 1 := ⟨m - 1, by simp at hm; omega⟩
                have hle : (a :: ce1).length ≤ m1 := by simp at hm ⊢; omega
                have s1 := skipWs_ws_append w (a :: ce1) r t hw hce hnl
                have s2 := xe m1 t hle
                simp only [List.cons_append, List.append_assoc] at s1 s2 ⊢
                rw [parseValue_succ, if_neg hb, if_pos hq, s1]
                simp only [if_neg hclose]
                rw [s2]
                rfl
      · rename_i hq
        obtain ⟨c1, e1, hc1, hobj, x1⟩ := parseScalar_ext _ _ _ h
        refine ⟨c1, e1, hc1, ?_, ?_⟩
        · intro ho
          rw [hobj] at ho
          cases ho
        · intro m t hm hcond
          cases c1 with
          | nil => exact absurd rfl hc1
          | cons a c2 =>
            have ha : a = c := by
              have := congrArg List.head? e1
              simpa using this.symm
            subst ha
            obtain ⟨m1, rfl⟩ : ∃ m1, m = m1 + 1 := ⟨m - 1, by simp at hm; omega⟩
            have s1 := x1 t hcond
            simp only [List.cons_append] at s1 ⊢
            rw [parseValue_succ, if_neg hb, if_neg hq, s1]

/-- Every successful parse of a value, of object members and of array elements has the
extension property. -/
theorem parse_ext (n : Nat) :
    (∀ s v r, parseValue n s = some (v, r) → ValueExt s v r) ∧
    (∀ s kvs r, parseMembers n s = some (kvs, r) → MembersExt s kvs r) ∧
    (∀ s xs r, parseElements n s = some (xs, r) → ElementsExt s xs r) := by
  induction n with
  | zero =>
    refine ⟨?_, ?_, ?_⟩
    · intro s v r h; simp [parseValue] at h
    · intro s v r h; simp [parseMembers] at h
    · intro s v r h; simp [parseElements] at h
  | succ n ih =>
    obtain ⟨ihv, ihm, ihe⟩ := ih
    exact ⟨value_step n ihm ihe, members_step n ihv ihm, elements_step n ihv ihe⟩


/-- The bound of the recursion never cuts a parse short: a value that some bound reads is
read with the bound `jsonParse` uses, the length of the text and one. -/
theorem parseValue_fuel (n : Nat) (s : List Char) (v : Json) (r : List Char)
    (h : parseValue n s = some (v, r)) : parseValue (s.length + 1) s = some (v, r) := by
  obtain ⟨c, ec, _, _, xc⟩ := (parse_ext n).1 s v r h
  have := xc (s.length + 1) r (by rw [ec]; simp; omega) (fun _ => rfl)
  rw [← ec] at this
  exact this

/-! ## Texts of objects -/

theorem skipWs_eq_nil_iff (t : List Char) : skipWs t = [] ↔ AllWs t := by
  induction t with
  | nil => simp [skipWs, AllWs]
  | cons x xs ih =>
    by_cases hx : isWs x = true
    · simp only [skipWs, hx, if_true, ih]
      constructor
      · intro h y hy
        rcases List.mem_cons.mp hy with rfl | hy
        · exact hx
        · exact h y hy
      · intro h y hy
        exact h y (List.mem_cons_of_mem _ hy)
    · have hx2 : isWs x = false := by simpa using hx
      simp only [skipWs, hx2]
      constructor
      · intro h; simp at h
      · intro h
        have := h x (List.mem_cons_self _ _)
        rw [hx2] at this
        cases this

theorem parseValue_isObj (n : Nat) (s : List Char) (v : Json) (r : List Char)
    (h : parseValue n s = some (v, r)) : v.isObj = true ↔ s.head? = some '\x7b' := by
  cases n with
  | zero => simp [parseValue] at h
  | succ n =>
    cases s with
    | nil => simp [parseValue] at h
    | cons c cs =>
      rw [parseValue_succ] at h
      split at h
      · rename_i hb
        have hv : v.isObj = true := by
          split at h
          · simp at h
          · split at h
            · simp at h
              obtain ⟨rfl, _⟩ := h
              rfl
            · simp at h
              obtain ⟨kvs, _, rfl⟩ := h
              rfl
        simp [hv, hb]
      · rename_i hb
        have hv : v.isObj = false := by
          split at h
          · split at h
            · simp at h
            · split at h
              · simp at h
                obtain ⟨rfl, _⟩ := h
                rfl
              · simp at h
                obtain ⟨xs, _, rfl⟩ := h
                rfl
          · obtain ⟨_, _, _, ho, _⟩ := parseScalar_ext _ _ _ h
            exact ho
        simp [hv, hb]

theorem isWs_lbrace : isWs '\x7b' = false := by decide

theorem isWs_rbrace : isWs '\x7d' = false := by decide

/-- The text of an object is the object between whitespace; the object begins with an
opening brace, ends with a closing brace, and what follows it decides the parse. -/
theorem object_text (o : List Char) (v : Json) (h : jsonParse o = some v)
    (hv : v.isObj = true) :
    ∃ w1 c w2, o = w1 ++ (c ++ w2) ∧ AllWs w1 ∧ AllWs w2 ∧
      c.head? = some '\x7b' ∧ c.getLast? = some '\x7d' ∧
      (∀ t, AllWs t → jsonParse (c ++ t) = some v) ∧
      (∀ t, ¬ AllWs t → jsonParse (c ++ t) = none) := by
  unfold jsonParse at h
  split at h
  · simp at h
  · rename_i v1 r hp
    split at h
    · rename_i hr
      simp at h
      subst h
      obtain ⟨w1, hw1, e1, _⟩ := skipWs_decomp o
      obtain ⟨c, ec, hc, hlast, xc⟩ := (parse_ext _).1 _ _ _ hp
      have hhead : c.head? = some '\x7b' := by
        have := (parseValue_isObj _ _ _ _ hp).mp hv
        rw [ec] at this
        cases c with
        | nil => exact absurd rfl hc
        | cons a as => simpa using this
      have hnl : ∀ t, NoLeadWs (c ++ t) := by
        intro t x hx
        cases c with
        | nil => exact absurd rfl hc
        | cons a as =>
          simp at hhead hx
          subst hx
          rw [hhead]
          exact isWs_lbrace
      have hr2 : AllWs r := (skipWs_eq_nil_iff r).mp (by simpa using hr)
      have hnum : v1.isNum = false := by
        cases v1 <;> first | rfl | (simp [Json.isObj] at hv)
      have key : ∀ t, parseValue ((c ++ t).length + 1) (skipWs (c ++ t)) = some (v1, t) := by
        intro t
        rw [skipWs_noLead _ (hnl t)]
        exact xc _ t (by simp; omega) (by intro hn; rw [hnum] at hn; cases hn)
      refine ⟨w1, c, r, by rw [← ec]; exact e1, hw1, hr2, hhead, hlast hv, ?_, ?_⟩
      · intro t ht
        unfold jsonParse
        rw [key t]
        have := (skipWs_eq_nil_iff t).mpr ht
        simp [this]
      · intro t ht
        unfold jsonParse
        rw [key t]
        have : skipWs t ≠ [] := fun hh => ht ((skipWs_eq_nil_iff t).mp hh)
        simp [this]
    · simp at h

/-- A text that begins with an opening brace and has no closing brace does not parse. -/
theorem jsonParse_no_close (s : List Char) (hh : s.head? = some '\x7b')
    (hc : '\x7d' ∉ s) : jsonParse s = none := by
  cases hp : jsonParse s with
  | none => rfl
  | some v =>
    exfalso
    have hs : skipWs s = s := by
      apply skipWs_noLead
      intro x hx
      rw [hh] at hx
      simp at hx
      subst hx
      exact isWs_lbrace
    unfold jsonParse at hp
    rw [hs] at hp
    split at hp
    · simp at hp
    · rename_i v1 r hv1
      have hobj := (parseValue_isObj _ _ _ _ hv1).mpr hh
      obtain ⟨c, ec, _, hlast, _⟩ := (parse_ext _).1 _ _ _ hv1
      have hm := List.mem_of_getLast?_eq_some (hlast hobj)
      apply hc
      rw [ec]
      exact List.mem_append_left _ hm


/-! ## Positions of a character -/

theorem indexOf_eq_none (c : Char) (s : List Char) : indexOf c s = none ↔ c ∉ s := by
  induction s with
  | nil => simp [indexOf]
  | cons x xs ih =>
    by_cases hx : x = c
    · simp [indexOf, hx]
    · have hx2 : ¬ c = x := fun h => hx h.symm
      simp [indexOf, hx, hx2, ih]

theorem indexOf_append (c : Char) (p r : List Char) (hp : c ∉ p) :
    indexOf c (p ++ c :: r) = some p.length := by
  induction p with
  | nil => simp [indexOf]
  | cons x xs ih =>
    have hx : ¬ x = c := fun h => hp (by simp [h])
    have hxs : c ∉ xs := fun h => hp (List.mem_cons_of_mem _ h)
    simp [indexOf, hx, ih hxs]

theorem indexOf_some (c : Char) (s : List Char) : ∀ i, indexOf c s = some i →
    ∃ r, s.drop i = c :: r := by
  induction s with
  | nil => intro i h; simp [indexOf] at h
  | cons x xs ih =>
    intro i h
    by_cases hx : x = c
    · simp [indexOf, hx] at h
      subst h
      exact ⟨xs, by simp [hx]⟩
    · simp [indexOf, hx] at h
      obtain ⟨j, hj, rfl⟩ := h
      obtain ⟨r, hr⟩ := ih j hj
      exact ⟨r, by simpa using hr⟩

theorem lastIndexOf_eq_none (c : Char) (s : List Char) : lastIndexOf c s = none ↔ c ∉ s := by
  induction s with
  | nil => simp [lastIndexOf]
  | cons x xs ih =>
    simp only [lastIndexOf]
    cases hl : lastIndexOf c xs with
    | some i =>
      have : ¬ c ∉ xs := fun h => by rw [ih.mpr h] at hl; cases hl
      simp at this
      simp [this]
    | none =>
      have hxs := ih.mp hl
      by_cases hx : x = c
      · simp [hx]
      · have hx2 : ¬ c = x := fun h => hx h.symm
        simp [hx, hx2, hxs]

theorem lastIndexOf_append (c : Char) (p r : List Char) (hr : c ∉ r) :
    lastIndexOf c (p ++ c :: r) = some p.length := by
  induction p with
  | nil =>
    simp [lastIndexOf, (lastIndexOf_eq_none c r).mpr hr]
  | cons x xs ih =>
    simp [lastIndexOf, ih]

theorem allWs_not_mem (w : List Char) (c : Char) (hw : AllWs w) (hc : isWs c = false) :
    c ∉ w := by
  intro h
  have := hw c h
  rw [hc] at this
  cases this

theorem allWs_append (a b : List Char) : AllWs (a ++ b) ↔ AllWs a ∧ AllWs b := by
  constructor
  · intro h
    exact ⟨fun x hx => h x (List.mem_append_left _ hx), fun x hx => h x (List.mem_append_right _ hx)⟩
  · intro h x hx
    rcases List.mem_append.mp hx with h1 | h1
    · exact h.1 x h1
    · exact h.2 x h1

/-! ## The response normalizer on a string -/

theorem str_truthy (s : String) (h : s.toList ≠ []) : (JVal.str s).truthy = true := by
  have : ¬ s.isEmpty = true := by
    rw [String.isEmpty_iff]
    intro hs
    subst hs
    exact h rfl
  simp [JVal.truthy, this]

/-- The normalizer on a string that is not empty. -/
theorem extract_str (s : String) (h : s.toList ≠ []) :
    extractJsonFromContent (JVal.str s) =
      match indexOf '\x7b' s.toList with
      | none => Except.error "No JSON object found in model response"
      | some idx =>
        match jsonParse (s.toList.drop idx) with
        | some v => Except.ok v
        | none =>
          match lastIndexOf '\x7d' (s.toList.drop idx) with
          | some last =>
            match jsonParse ((s.toList.drop idx).take (last + 1)) with
            | some v => Except.ok v
            | none => Except.error "Failed to parse JSON from model response"
          | none => Except.error "Failed to parse JSON from model response" := by
  unfold extractJsonFromContent
  simp [str_truthy s h, JVal.typeof, JVal.chars]


theorem toList_append3 (p o t : String) :
    (p ++ o ++ t).toList = p.toList ++ (o.toList ++ t.toList) := by
  simp [String.toList]

/-- Where the normalizer starts and what it reads, for the text of an object between a
part without opening brace and any other part. -/
theorem around_object (p o t : List Char) (v : Json) (ho : jsonParse o = some v)
    (hv : v.isObj = true) (hp : '\x7b' ∉ p) :
    ∃ idx pre w2, indexOf '\x7b' (p ++ (o ++ t)) = some idx ∧
      (p ++ (o ++ t)).drop idx = (pre ++ ['\x7d']) ++ (w2 ++ t) ∧ AllWs w2 ∧
      (∀ u, AllWs u → jsonParse ((pre ++ ['\x7d']) ++ u) = some v) ∧
      (∀ u, ¬ AllWs u → jsonParse ((pre ++ ['\x7d']) ++ u) = none) := by
  obtain ⟨w1, c, w2, eo, hw1, hw2, hhead, hlast, hyes, hno⟩ := object_text o v ho hv
  obtain ⟨pre, hpre⟩ : ∃ pre, c = pre ++ ['\x7d'] := by
    rcases List.eq_nil_or_concat c with hnil | ⟨pre, x, hx⟩
    · rw [hnil] at hlast; simp at hlast
    · rw [hx] at hlast
      simp at hlast
      exact ⟨pre, by rw [hx, hlast]; simp⟩
  subst hpre
  obtain ⟨c1, hc1⟩ : ∃ c1, pre ++ ['\x7d'] = '\x7b' :: c1 := by
    cases hq : pre ++ ['\x7d'] with
    | nil => simp at hq
    | cons a as =>
      rw [hq] at hhead
      simp at hhead
      exact ⟨as, by rw [hhead]⟩
  have hnot : '\x7b' ∉ p ++ w1 := by
    intro h
    rcases List.mem_append.mp h with h1 | h1
    · exact hp h1
    · exact allWs_not_mem w1 _ hw1 isWs_lbrace h1
  have e : p ++ (o ++ t) = (p ++ w1) ++ '\x7b' :: (c1 ++ (w2 ++ t)) := by
    rw [eo, hc1]; simp
  refine ⟨(p ++ w1).length, pre, w2, ?_, ?_, hw2, hyes, hno⟩
  · rw [e]; exact indexOf_append _ _ _ hnot
  · rw [e, List.drop_left, hc1]; simp

/-- The normalizer on the text of an object between a part without opening brace and a
part without closing brace: where it starts, what its two parses give, and its result. -/
theorem normalize_object (p o t : String) (v : Json)
    (ho : jsonParse o.toList = some v) (hv : v.isObj = true)
    (hp : '\x7b' ∉ p.toList) (ht : '\x7d' ∉ t.toList) :
    ∃ idx last, indexOf '\x7b' (p ++ o ++ t).toList = some idx ∧
      (AllWs t.toList → jsonParse ((p ++ o ++ t).toList.drop idx) = some v) ∧
      (¬ AllWs t.toList → jsonParse ((p ++ o ++ t).toList.drop idx) = none) ∧
      lastIndexOf '\x7d' ((p ++ o ++ t).toList.drop idx) = some last ∧
      jsonParse (((p ++ o ++ t).toList.drop idx).take (last + 1)) = some v ∧
      extractJsonFromContent (JVal.str (p ++ o ++ t)) = Except.ok v := by
  obtain ⟨idx, pre, w2, hidx, hdrop, hw2, hyes, hno⟩ :=
    around_object p.toList o.toList t.toList v ho hv hp
  rw [← toList_append3] at hidx hdrop
  have hne : (p ++ o ++ t).toList ≠ [] := by
    intro h
    rw [h] at hidx
    simp [indexOf] at hidx
  have hfirst1 : AllWs t.toList → jsonParse ((p ++ o ++ t).toList.drop idx) = some v := by
    intro hws
    rw [hdrop]
    exact hyes _ ((allWs_append _ _).mpr ⟨hw2, hws⟩)
  have hfirst2 : ¬ AllWs t.toList → jsonParse ((p ++ o ++ t).toList.drop idx) = none := by
    intro hws
    rw [hdrop]
    exact hno _ (fun h => hws ((allWs_append _ _).mp h).2)
  have hnc : '\x7d' ∉ w2 ++ t.toList := by
    intro h
    rcases List.mem_append.mp h with h1 | h1
    · exact allWs_not_mem w2 _ hw2 isWs_rbrace h1
    · exact ht h1
  have hlast : lastIndexOf '\x7d' ((p ++ o ++ t).toList.drop idx) = some pre.length := by
    rw [hdrop]
    have : (pre ++ ['\x7d']) ++ (w2 ++ t.toList) = pre ++ '\x7d' :: (w2 ++ t.toList) := by simp
    rw [this]
    exact lastIndexOf_append _ _ _ hnc
  have hsecond : jsonParse (((p ++ o ++ t).toList.drop idx).take (pre.length + 1)) = some v := by
    rw [hdrop]
    have : ((pre ++ ['\x7d']) ++ (w2 ++ t.toList)).take (pre.length + 1) = pre ++ ['\x7d'] := by
      rw [List.take_append_of_le_length (by simp)]
      exact List.take_of_length_le (by simp)
    rw [this]
    have := hyes [] (by intro x hx; cases hx)
    simpa using this
  refine ⟨idx, pre.length, hidx, hfirst1, hfirst2, hlast, hsecond, ?_⟩
  rw [extract_str _ hne]
  by_cases hws : AllWs t.toList
  · simp only [hidx, hfirst1 hws]
  · simp only [hidx, hfirst2 hws, hlast, hsecond]

/-- C4. Truncation recovery: for the text of a JSON object between a part without opening
brace and a trailing part that has no closing brace and is not all whitespace, the first
parse of `extractJsonFromContent` fails, the parse up to the last closing brace gives the
object, and the function returns it. -/
theorem truncation_recovery (p o t : String) (v : Json)
    (ho : jsonParse o.toList = some v) (hv : v.isObj = true)
    (hp : '\x7b' ∉ p.toList) (ht : '\x7d' ∉ t.toList) (hws : ¬ AllWs t.toList) :
    ∃ idx last, indexOf '\x7b' (p ++ o ++ t).toList = some idx ∧
      jsonParse ((p ++ o ++ t).toList.drop idx) = none ∧
      lastIndexOf '\x7d' ((p ++ o ++ t).toList.drop idx) = some last ∧
      jsonParse (((p ++ o ++ t).toList.drop idx).take (last + 1)) = some v ∧
      extractJsonFromContent (JVal.str (p ++ o ++ t)) = Except.ok v := by
  obtain ⟨idx, last, h1, _, h3, h4, h5, h6⟩ := normalize_object p o t v ho hv hp ht
  exact ⟨idx, last, h1, h3 hws, h4, h5, h6⟩

theorem truncation_recovery_witness :
    ∃ idx last,
      indexOf '\x7b' ("" ++ "\x7b\"a\":1,\"b\":2\x7d" ++ " trailing garbage").toList = some idx ∧
      jsonParse (("" ++ "\x7b\"a\":1,\"b\":2\x7d" ++ " trailing garbage").toList.drop idx) = none ∧
      lastIndexOf '\x7d'
        (("" ++ "\x7b\"a\":1,\"b\":2\x7d" ++ " trailing garbage").toList.drop idx) = some last ∧
      jsonParse ((("" ++ "\x7b\"a\":1,\"b\":2\x7d" ++ " trailing garbage").toList.drop idx).take
        (last + 1)) = some (Json.obj [("a", Json.num "1"), ("b", Json.num "2")]) ∧
      extractJsonFromContent (JVal.str ("" ++ "\x7b\"a\":1,\"b\":2\x7d" ++ " trailing garbage")) =
        Except.ok (Json.obj [("a", Json.num "1"), ("b", Json.num "2")]) :=
  truncation_recovery "" "\x7b\"a\":1,\"b\":2\x7d" " trailing garbage"
    (Json.obj [("a", Json.num "1"), ("b", Json.num "2")]) rfl rfl (by decide) (by decide)
    (by decide)

/-- C1, as the code has it. Round trip: for the text of a JSON object between a part
without opening brace and a part without closing brace, `extractJsonFromContent` returns
the object; its first parse, from the first opening brace to the end, gives the object
exactly when the part after the object is all whitespace. -/
theorem roundtrip_object (p o s : String) (v : Json)
    (ho : jsonParse o.toList = some v) (hv : v.isObj = true)
    (hp : '\x7b' ∉ p.toList) (hs : '\x7d' ∉ s.toList) :
    ∃ idx, indexOf '\x7b' (p ++ o ++ s).toList = some idx ∧
      (jsonParse ((p ++ o ++ s).toList.drop idx) = some v ↔ AllWs s.toList) ∧
      extractJsonFromContent (JVal.str (p ++ o ++ s)) = Except.ok v := by
  obtain ⟨idx, last, h1, h2, h3, _, _, h6⟩ := normalize_object p o s v ho hv hp hs
  refine ⟨idx, h1, ⟨?_, h2⟩, h6⟩
  intro hsome
  by_contra hws
  rw [h3 hws] at hsome
  cases hsome

theorem roundtrip_object_witness :
    ∃ idx, indexOf '\x7b' ("Here you go: " ++ " \x7b\"a\":[1,\x7b\x7d]\x7d" ++ "\n").toList = some idx ∧
      (jsonParse (("Here you go: " ++ " \x7b\"a\":[1,\x7b\x7d]\x7d" ++ "\n").toList.drop idx) =
        some (Json.obj [("a", Json.arr [Json.num "1", Json.obj []])]) ↔ AllWs "\n".toList) ∧
      extractJsonFromContent (JVal.str ("Here you go: " ++ " \x7b\"a\":[1,\x7b\x7d]\x7d" ++ "\n")) =
        Except.ok (Json.obj [("a", Json.arr [Json.num "1", Json.obj []])]) :=
  roundtrip_object "Here you go: " " \x7b\"a\":[1,\x7b\x7d]\x7d" "\n"
    (Json.obj [("a", Json.arr [Json.num "1", Json.obj []])]) rfl rfl (by decide) (by decide)

/-- C1 fails as stated. After the object text `{"a":1}` the part ` x` makes the first
parse fail (the function returns the object by its second parse); before it the part `{`
makes both parses fail, and the function returns no value at all. -/
theorem roundtrip_counterexample :
    jsonParse "\x7b\"a\":1\x7d".toList = some (Json.obj [("a", Json.num "1")]) ∧
    indexOf '\x7b' ("" ++ "\x7b\"a\":1\x7d" ++ " x").toList = some 0 ∧
    jsonParse (("" ++ "\x7b\"a\":1\x7d" ++ " x").toList.drop 0) = none ∧
    extractJsonFromContent (JVal.str ("\x7b" ++ "\x7b\"a\":1\x7d" ++ "")) =
      Except.error "Failed to parse JSON from model response" :=
  ⟨rfl, rfl, rfl, rfl⟩

/-- C3, as the code has it. A string without opening brace gives no value: the empty string
fails with `No content to parse`, every other one with `No JSON object found in model
response`. -/
theorem no_brace_fails (s : String) (h : '\x7b' ∉ s.toList) :
    extractJsonFromContent (JVal.str s) =
      if s = "" then Except.error "No content to parse"
      else Except.error "No JSON object found in model response" := by
  by_cases hs : s = ""
  · subst hs
    rfl
  · have hne : s.toList ≠ [] := by
      intro hl
      apply hs
      cases s
      simp [String.toList] at hl
      subst hl
      rfl
    rw [extract_str _ hne, (indexOf_eq_none _ _).mpr h]
    simp [hs]

theorem no_brace_fails_witness :
    extractJsonFromContent (JVal.str "Sorry, I cannot read this invoice.") =
      if "Sorry, I cannot read this invoice." = "" then Except.error "No content to parse"
      else Except.error "No JSON object found in model response" :=
  no_brace_fails "Sorry, I cannot read this invoice." (by decide)

/-- C3 fails as stated on the empty string: the error is `No content to parse`, which is
not the error `No JSON object found in model response`. -/
theorem no_brace_counterexample :
    '\x7b' ∉ "".toList ∧
    extractJsonFromContent (JVal.str "") = Except.error "No content to parse" ∧
    extractJsonFromContent (JVal.str "") ≠
      Except.error "No JSON object found in model response" := by
  refine ⟨by decide, rfl, ?_⟩
  intro h
  have h2 : extractJsonFromContent (JVal.str "") = Except.error "No content to parse" := rfl
  rw [h2] at h
  injection h with h3
  revert h3
  decide

/-- C5. A string with an opening brace, for which the parse from the first opening brace to
the end and the parse up to the last closing brace both fail, or in which no closing brace
follows the first opening brace, fails with `Failed to parse JSON from model response`,
which is not the error for no JSON found. -/
theorem malformed_fails (s : String) (idx : Nat)
    (hi : indexOf '\x7b' s.toList = some idx)
    (h : (jsonParse (s.toList.drop idx) = none ∧
          ∀ last, lastIndexOf '\x7d' (s.toList.drop idx) = some last →
            jsonParse ((s.toList.drop idx).take (last + 1)) = none) ∨
         '\x7d' ∉ s.toList.drop idx) :
    extractJsonFromContent (JVal.str s) =
        Except.error "Failed to parse JSON from model response" ∧
      (Except.error "Failed to parse JSON from model response" : Except String Json) ≠
        Except.error "No JSON object found in model response" := by
  have hne : s.toList ≠ [] := by
    intro hl
    rw [hl] at hi
    simp [indexOf] at hi
  constructor
  · rw [extract_str _ hne]
    simp only [hi]
    rcases h with ⟨h1, h2⟩ | h3
    · simp only [h1]
      cases hl : lastIndexOf '\x7d' (s.toList.drop idx) with
      | none => rfl
      | some last => simp only [h2 last hl]
    · obtain ⟨r, hr⟩ := indexOf_some _ _ _ hi
      have h1 : jsonParse (s.toList.drop idx) = none :=
        jsonParse_no_close _ (by rw [hr]; rfl) h3
      simp only [h1, (lastIndexOf_eq_none _ _).mpr h3]
  · intro hh
    injection hh with h3
    revert h3
    decide

theorem malformed_fails_witness :
    extractJsonFromContent (JVal.str "not json at all \x7bbroken") =
        Except.error "Failed to parse JSON from model response" ∧
      (Except.error "Failed to parse JSON from model response" : Except String Json) ≠
        Except.error "No JSON object found in model response" :=
  malformed_fails "not json at all \x7bbroken" 16 rfl (Or.inr (by decide))


set_option maxRecDepth 100000

/-! ## Response shapes -/

/-- On a body with a `message` that has a `content`, the content the adapters normalize
has the same outcome as the content string. -/
theorem message_shape (s : String) :
    extractJsonFromContent (responseContent (httpResponse (messageBody s))) =
      extractJsonFromContent (JVal.str s) := by
  by_cases hs : s.isEmpty = true
  · have : s = "" := (String.isEmpty_iff s).mp hs
    subst this
    rfl
  · have ht : (JVal.str s).truthy = true := by simp [JVal.truthy, hs]
    have : responseContent (httpResponse (messageBody s)) = JVal.str s := by
      simp [responseContent, httpResponse, messageBody, optChain, getProp, JVal.nullish, jsOr,
        jsAnd, JVal.truthy, List.lookup, hs]
    rw [this]

/-- On a body with a `response` property, the content the adapters normalize is the body
itself, which is no string: the normalizer rejects it. -/
theorem response_shape (s : String) :
    responseContent (httpResponse (responseBody s)) = responseBody s ∧
    extractJsonFromContent (responseContent (httpResponse (responseBody s))) =
      Except.error "No content to parse" := by
  have : responseContent (httpResponse (responseBody s)) = responseBody s := by
    simp [responseContent, httpResponse, responseBody, optChain, getProp, JVal.nullish, jsOr,
      jsAnd, JVal.truthy, List.lookup]
  rw [this]
  exact ⟨rfl, rfl⟩

/-- C2. The end-to-end scenario: the invoice text parses to the invoice, and each HTTP
adapter returns the invoice for a body with `message.content`; for a body with `response`
each of them fails with `No content to parse`. -/
theorem end_to_end_response_shape :
    extractJsonFromContent (JVal.str invoiceText) = Except.ok invoiceJson ∧
    (parseWithOllamaLocal (scenarioWorld (messageBody invoiceText)) pngBytes {}).result =
      Except.ok invoiceJson ∧
    (parseWithOllamaLocal (scenarioWorld (responseBody invoiceText)) pngBytes {}).result =
      Except.error "No content to parse" ∧
    (parseWithGemma (scenarioWorld (responseBody invoiceText)) pngBytes {}).result =
      Except.error "No content to parse" ∧
    (parseWithOllamaCloud (scenarioWorld (responseBody invoiceText)) pngBytes
      { baseUrl := JVal.str "https://ollama.example.com/" }).result =
      Except.error "No content to parse" :=
  ⟨rfl, rfl, rfl, rfl, rfl⟩


/-! ## The adapters -/

theorem runOCR_trace (w : World) (img : List UInt8) (opts : Opts) :
    (runOCR w img opts).trace = [Event.recognize img (ocrLanguage w opts)] := by
  simp only [runOCR]
  split <;> rfl

theorem runOCR_error (w : World) (img : List UInt8) (opts : Opts) (e : String)
    (h : w.recognize img (ocrLanguage w opts) = Except.error e) :
    (runOCR w img opts).result = Except.error e := by
  simp only [runOCR, h]

theorem runOCR_ok (w : World) (img : List UInt8) (opts : Opts) (data : JVal)
    (h : w.recognize img (ocrLanguage w opts) = Except.ok data) :
    (runOCR w img opts).result = Except.ok (jsOr (optChain data "text") (JVal.str "")) := by
  simp only [runOCR, h]

/-- C6, as the code has it. With no base URL in the options and none in the environment,
`parseWithOllamaCloud` calls the recognizer and nothing else, so it issues no HTTP request,
and it fails: with the configuration error when the recognizer returns, with the error of
the recognizer when the recognizer fails. -/
theorem cloud_without_base_url (w : World) (img : List UInt8) (opts : Opts)
    (hopt : opts.baseUrl = JVal.undefined) (henv : w.env "OLLAMA_CLOUD_URL" = none) :
    (parseWithOllamaCloud w img opts).trace = [Event.recognize img (ocrLanguage w opts)] ∧
    (parseWithOllamaCloud w img opts).trace.any Event.isPost = false ∧
    (parseWithOllamaCloud w img opts).result =
      match w.recognize img (ocrLanguage w opts) with
      | Except.error e => Except.error e
      | Except.ok _ =>
        Except.error "OLLAMA cloud baseUrl not provided (opts.baseUrl or OLLAMA_CLOUD_URL)" := by
  have hb : (cloudBaseUrl w opts).truthy = false := by
    simp [cloudBaseUrl, envVal, hopt, henv, jsOr, JVal.truthy]
  have ht := runOCR_trace w img opts
  cases hr : w.recognize img (ocrLanguage w opts) with
  | error e =>
    have h1 := runOCR_error w img opts e hr
    refine ⟨?_, ?_, ?_⟩ <;> simp [parseWithOllamaCloud, h1, ht, Event.isPost]
  | ok data =>
    have h1 := runOCR_ok w img opts data hr
    refine ⟨?_, ?_, ?_⟩ <;> simp [parseWithOllamaCloud, h1, ht, hb, Event.isPost]

theorem cloud_without_base_url_witness :
    (parseWithOllamaCloud (scenarioWorld (messageBody invoiceText)) pngBytes {}).trace =
      [Event.recognize pngBytes (ocrLanguage (scenarioWorld (messageBody invoiceText)) {})] ∧
    (parseWithOllamaCloud (scenarioWorld (messageBody invoiceText)) pngBytes {}).trace.any
      Event.isPost = false ∧
    (parseWithOllamaCloud (scenarioWorld (messageBody invoiceText)) pngBytes {}).result =
      match (scenarioWorld (messageBody invoiceText)).recognize pngBytes
        (ocrLanguage (scenarioWorld (messageBody invoiceText)) {}) with
      | Except.error e => Except.error e
      | Except.ok _ =>
        Except.error "OLLAMA cloud baseUrl not provided (opts.baseUrl or OLLAMA_CLOUD_URL)" :=
  cloud_without_base_url (scenarioWorld (messageBody invoiceText)) pngBytes {} rfl rfl

/-- C6 fails as stated. With no base URL configured and a recognizer that rejects the
image, `parseWithOllamaCloud` has called the recognizer and fails with the error of the
recognizer, not with the configuration error. -/
theorem cloud_without_base_url_counterexample :
    (parseWithOllamaCloud unreadableWorld pngBytes {}).trace =
      [Event.recognize pngBytes (JVal.str "eng")] ∧
    (parseWithOllamaCloud unreadableWorld pngBytes {}).result =
      Except.error "Error attempting to read image." ∧
    "Error attempting to read image." ≠
      "OLLAMA cloud baseUrl not provided (opts.baseUrl or OLLAMA_CLOUD_URL)" :=
  ⟨rfl, rfl, by decide⟩

/-- C7, as the code has it. No OCR-backed adapter checks the image buffer: with an empty
buffer each of them calls the recognizer on it as its first step. -/
theorem empty_buffer_is_recognized (w : World) (opts : Opts) :
    (parseWithGemma w [] opts).trace.head? = some (Event.recognize [] (ocrLanguage w opts)) ∧
    (parseWithOllamaLocal w [] opts).trace.head? =
      some (Event.recognize [] (ocrLanguage w opts)) ∧
    (parseWithOllamaCloud w [] opts).trace.head? =
      some (Event.recognize [] (ocrLanguage w opts)) := by
  have ht := runOCR_trace w [] opts
  refine ⟨?_, ?_, ?_⟩
  · simp only [parseWithGemma]
    split
    · simp [ht]
    · split <;> simp [ht]
  · simp only [parseWithOllamaLocal]
    split
    · simp [ht]
    · split
      · simp [ht]
      · split <;> simp [ht]
  · simp only [parseWithOllamaCloud]
    split
    · simp [ht]
    · split
      · simp [ht]
      · split
        · simp [ht]
        · split <;> simp [ht]

/-- C7 fails as stated. With an empty image buffer `parseWithOllamaLocal` calls the
recognizer and, in the end-to-end scenario, returns the invoice. -/
theorem empty_buffer_counterexample :
    (parseWithOllamaLocal (scenarioWorld (messageBody invoiceText)) [] {}).trace.any
      Event.isRecognize = true ∧
    (parseWithOllamaLocal (scenarioWorld (messageBody invoiceText)) [] {}).trace.head? =
      some (Event.recognize [] (JVal.str "eng")) ∧
    (parseWithOllamaLocal (scenarioWorld (messageBody invoiceText)) [] {}).result =
      Except.ok invoiceJson :=
  ⟨rfl, rfl, rfl⟩


/-- An HTTP adapter that returns a value returns what the normalizer made of the content
of a response of the endpoint. -/
theorem http_adapters_return_normalized (w : World) (img : List UInt8) (opts : Opts)
    (v : Json)
    (h : (parseWithGemma w img opts).result = Except.ok v ∨
      (parseWithOllamaLocal w img opts).result = Except.ok v ∨
      (parseWithOllamaCloud w img opts).result = Except.ok v) :
    ∃ url body config response, w.post url body config = Except.ok response ∧
      extractJsonFromContent (responseContent response) = Except.ok v := by
  rcases h with h | h | h
  · simp only [parseWithGemma] at h
    split at h
    · simp at h
    · split at h
      · simp at h
      · rename_i response hp
        exact ⟨_, _, _, response, hp, h⟩
  · simp only [parseWithOllamaLocal] at h
    split at h
    · simp at h
    · split at h
      · simp at h
      · split at h
        · simp at h
        · rename_i response hp
          exact ⟨_, _, _, response, hp, h⟩
  · simp only [parseWithOllamaCloud] at h
    split at h
    · simp at h
    · split at h
      · simp at h
      · split at h
        · simp at h
        · split at h
          · simp at h
          · rename_i response hp
            exact ⟨_, _, _, response, hp, h⟩

/-- C8. What `parseWithGemini` returns is the content of the response as it is: a text in
which the normalizer finds no JSON, or the JSON text of the invoice as a string; when the
client fails, the call fails on the variable `content`. -/
theorem gemini_returns_raw_content :
    (parseWithGemini (scenarioWorld (candidateBody "I could not read the invoice.")) pngBytes
      { apiKey := JVal.str "key" }).result =
      Except.ok (JVal.str "I could not read the invoice.") ∧
    extractJsonFromContent (JVal.str "I could not read the invoice.") =
      Except.error "No JSON object found in model response" ∧
    (parseWithGemini (scenarioWorld (candidateBody invoiceText)) pngBytes
      { apiKey := JVal.str "key" }).result = Except.ok (JVal.str invoiceText) ∧
    (parseWithGemini unreadableWorld pngBytes { apiKey := JVal.str "key" }).result =
      Except.error "content is not defined" :=
  ⟨rfl, rfl, rfl, rfl⟩

/-- C9, as the code has it. Every HTTP request of `parseWithOllamaLocal` and of
`parseWithOllamaCloud` carries a time-out: the time-out of the options when that is truthy,
and 120000 milliseconds otherwise. -/
theorem http_timeout (w : World) (img : List UInt8) (opts : Opts) (e : Event)
    (he : e ∈ (parseWithOllamaLocal w img opts).trace ∨
      e ∈ (parseWithOllamaCloud w img opts).trace)
    (hp : e.isPost = true) :
    e.timeout = if opts.timeout.truthy then opts.timeout else JVal.num 120000 := by
  have ht := runOCR_trace w img opts
  have key : ∀ url body headers,
      (Event.post url body (JVal.obj [("timeout", jsOr opts.timeout (JVal.num 120000))])).timeout =
        (if opts.timeout.truthy then opts.timeout else JVal.num 120000) ∧
      (Event.post url body (JVal.obj [("headers", headers),
        ("timeout", jsOr opts.timeout (JVal.num 120000))])).timeout =
        (if opts.timeout.truthy then opts.timeout else JVal.num 120000) := by
    intro url body headers
    constructor <;> simp [Event.timeout, optChain, JVal.nullish, getProp, List.lookup, jsOr]
  have hrec : ∀ x, e = Event.recognize img x → False := by
    intro x hx
    rw [hx] at hp
    simp [Event.isPost] at hp
  rcases he with he | he
  · simp only [parseWithOllamaLocal] at he
    split at he
    · simp [ht] at he
      exact (hrec _ he).elim
    · split at he
      · simp [ht] at he
        exact (hrec _ he).elim
      · split at he <;>
        · simp [ht] at he
          rcases he with he | he
          · exact (hrec _ he).elim
          · rw [he]; exact (key _ _ JVal.undefined).1
  · simp only [parseWithOllamaCloud] at he
    split at he
    · simp [ht] at he
      exact (hrec _ he).elim
    · split at he
      · simp [ht] at he
        exact (hrec _ he).elim
      · split at he
        · simp [ht] at he
          exact (hrec _ he).elim
        · split at he <;>
          · simp [ht] at he
            rcases he with he | he
            · exact (hrec _ he).elim
            · rw [he]; exact (key _ _ _).2

theorem http_timeout_witness :
    (Event.post "http://localhost:11434/api/generate"
      (generateBody (scenarioWorld (messageBody invoiceText)) (JVal.str "gemma3")
        (JVal.str "Invoice #123, Total: 45.00"))
      (JVal.obj [("timeout", JVal.num 5000)])).timeout =
      if (JVal.num 5000).truthy then JVal.num 5000 else JVal.num 120000 :=
  http_timeout (scenarioWorld (messageBody invoiceText)) pngBytes { timeout := JVal.num 5000 }
    (Event.post "http://localhost:11434/api/generate"
      (generateBody (scenarioWorld (messageBody invoiceText)) (JVal.str "gemma3")
        (JVal.str "Invoice #123, Total: 45.00"))
      (JVal.obj [("timeout", JVal.num 5000)]))
    (Or.inl (List.Mem.tail _ (List.Mem.head _))) rfl

/-- C9 fails as stated. With the time-out 0 given in the options, the request of
`parseWithOllamaLocal` carries the time-out 120000. -/
theorem http_timeout_counterexample :
    ((parseWithOllamaLocal (scenarioWorld (messageBody invoiceText)) pngBytes
      { timeout := JVal.num 0 }).trace.filter Event.isPost).map Event.timeout =
      [JVal.num 120000] :=
  rfl

/-- The request of `parseWithGemma` carries no time-out. -/
theorem gemma_request_has_no_timeout (w : World) (img : List UInt8) (opts : Opts)
    (e : Event) (he : e ∈ (parseWithGemma w img opts).trace) (hp : e.isPost = true) :
    e.timeout = JVal.undefined := by
  have ht := runOCR_trace w img opts
  have hrec : ∀ x, e = Event.recognize img x → False := by
    intro x hx
    rw [hx] at hp
    simp [Event.isPost] at hp
  simp only [parseWithGemma] at he
  split at he
  · simp [ht] at he
    exact (hrec _ he).elim
  · split at he <;>
    · simp [ht] at he
      rcases he with he | he
      · exact (hrec _ he).elim
      · rw [he]; rfl

/-- C10, as the code has it. Each setting is the option when the option is truthy,
whatever the environment holds; otherwise the environment value when it is set and not
empty; otherwise the built-in default, where `parseWithOllamaCloud` and `parseWithGemini`
have none: there the setting is the environment value as it is, empty or absent. The
recognizer is called with the language so resolved. -/
theorem option_resolution (w : World) (img : List UInt8) (opts : Opts) :
    ocrLanguage w opts =
      (if opts.language.truthy then opts.language
       else match w.env "OCR_LANGUAGE" with
         | some s => if s = "" then JVal.str "eng" else JVal.str s
         | none => JVal.str "eng") ∧
    (runOCR w img opts).trace = [Event.recognize img (ocrLanguage w opts)] ∧
    localBaseUrl w opts =
      (if opts.baseUrl.truthy then opts.baseUrl
       else match w.env "OLLAMA_LOCAL_URL" with
         | some s => if s = "" then JVal.str "http://localhost:11434" else JVal.str s
         | none => JVal.str "http://localhost:11434") ∧
    cloudBaseUrl w opts =
      (if opts.baseUrl.truthy then opts.baseUrl
       else match w.env "OLLAMA_CLOUD_URL" with
         | some s => JVal.str s
         | none => JVal.undefined) ∧
    cloudApiKey w opts =
      (if opts.apiKey.truthy then opts.apiKey
       else match w.env "OLLAMA_API_KEY" with
         | some s => JVal.str s
         | none => JVal.undefined) ∧
    geminiApiKey w opts =
      (if opts.apiKey.truthy then opts.apiKey
       else match w.env "GOOGLE_API_KEY" with
         | some s => JVal.str s
         | none => JVal.undefined) := by
  have hstr : ∀ s : String, (JVal.str s).truthy = !decide (s = "") := by
    intro s
    by_cases hs : s = ""
    · subst hs; rfl
    · have : ¬ s.isEmpty = true := fun h => hs ((String.isEmpty_iff s).mp h)
      simp [JVal.truthy, hs, this]
  refine ⟨?_, runOCR_trace w img opts, ?_, ?_, ?_, ?_⟩
  · simp only [ocrLanguage, jsOr, envVal]
    by_cases h1 : opts.language.truthy = true
    · simp [h1]
    · cases he : w.env "OCR_LANGUAGE" with
      | none => simp [h1, show JVal.undefined.truthy = false from rfl]
      | some s => by_cases hs : s = "" <;> simp [h1, hstr, hs]
  · simp only [localBaseUrl, jsOr, envVal]
    by_cases h1 : opts.baseUrl.truthy = true
    · simp [h1]
    · cases he : w.env "OLLAMA_LOCAL_URL" with
      | none => simp [h1, show JVal.undefined.truthy = false from rfl]
      | some s => by_cases hs : s = "" <;> simp [h1, hstr, hs]
  · simp only [cloudBaseUrl, jsOr, envVal]
  · simp only [cloudApiKey, jsOr, envVal]
  · simp only [geminiApiKey, jsOr, envVal]

/-- C10 fails as stated. With the language option present and empty and the environment
value `OCR_LANGUAGE` set to `deu`, the recognizer is called with `deu`, not with the
option. -/
theorem option_resolution_counterexample :
    ocrLanguage (germanWorld (messageBody invoiceText)) { language := JVal.str "" } =
      JVal.str "deu" ∧
    (runOCR (germanWorld (messageBody invoiceText)) pngBytes { language := JVal.str "" }).trace =
      [Event.recognize pngBytes (JVal.str "deu")] :=
  ⟨rfl, rfl⟩

end OCR
